import Mathlib

/-!
Verification development for the receipt-text field extractor of the
`ocr_case_tool` repository.  The Python sources `src/payments/ocr.py` and
`src/payments/models.py` are shallowly embedded here: Python strings become
`List Char`, the regular-expression searches become a small backtracking
engine faithful to CPython `re` semantics (leftmost match, greedy
quantifiers, left-biased alternation, group capture), `datetime.strptime`
becomes an explicit format parser, and the extractor `extract` becomes a
total Lean function assembling the same record.
-/

namespace OcrTool

abbrev Text := List Char

def txt (s : String) : Text := s.data

/-! ## Character predicates

`pySpaceB` models the set of characters matched by Python's `\s` (and by
`str.strip()` / `str.isspace()`): ASCII whitespace, the C1 controls
`\x1c`-`\x1f`, `\x85`, and the Unicode space characters. -/

def pySpaceB (c : Char) : Bool :=
  c = ' ' || c = '\t' || c = '\n' || c = '\r' || c = '\x0b' || c = '\x0c' ||
  c = '\x1c' || c = '\x1d' || c = '\x1e' || c = '\x1f' || c = '\x85' ||
  c = '\xa0' || c = '\u1680' ||
  (('\u2000' : Char) ≤ c && c ≤ ('\u200a' : Char)) ||
  c = '\u2028' || c = '\u2029' || c = '\u202f' || c = '\u205f' || c = '\u3000'

def digitB (c : Char) : Bool := '0' ≤ c && c ≤ '9'

def asciiLowerB (c : Char) : Bool := 'a' ≤ c && c ≤ 'z'

def asciiUpperB (c : Char) : Bool := 'A' ≤ c && c ≤ 'Z'

def letterB (c : Char) : Bool := asciiLowerB c || asciiUpperB c

/-- ASCII model of Python's `\w` (word character): letters, digits, `_`. -/
def wordCharB (c : Char) : Bool := letterB c || digitB c || c = '_'

/-- Characters collapsed by `re.sub(r"[|•·]+", " ", t)` in `clean_text`. -/
def bulletB (c : Char) : Bool := c = '|' || c = '•' || c = '·'

/-- Characters collapsed by `re.sub(r"[ \t]+", " ", t)` in `clean_text`. -/
def hSpaceB (c : Char) : Bool := c = ' ' || c = '\t'

/-- ASCII model of Python `str.lower` on one character. -/
def lowerChar (c : Char) : Char := c.toLower

def lowerStr (l : Text) : Text := l.map lowerChar

/-! ## Basic string utilities mirroring Python `str` methods -/

/-- Python `needle in hay` (substring membership). -/
def containsSub (needle hay : Text) : Bool :=
  match hay with
  | [] => needle.isEmpty
  | _ :: t => needle.isPrefixOf hay || containsSub needle t

/-- Python `s.startswith(p)`. -/
def startsWith (p s : Text) : Bool := p.isPrefixOf s

def lstripBy (p : Char → Bool) (l : Text) : Text := l.dropWhile p

def rstripBy (p : Char → Bool) (l : Text) : Text := (l.reverse.dropWhile p).reverse

/-- Python `s.strip()` (no argument: strips whitespace at both ends). -/
def stripPy (l : Text) : Text := rstripBy pySpaceB (lstripBy pySpaceB l)

/-- Python `s.strip(": -")` used on the bank line. -/
def colMinusSpaceB (c : Char) : Bool := c = ':' || c = ' ' || c = '-'

def stripColMinusSpace (l : Text) : Text :=
  rstripBy colMinusSpaceB (lstripBy colMinusSpaceB l)

/-- Python `s.replace("  ", " ")`: replace each non-overlapping double space
(scanning left to right) by a single space. -/
def replaceDoubleSpace : Text → Text
  | ' ' :: ' ' :: rest => ' ' :: replaceDoubleSpace rest
  | c :: rest => c :: replaceDoubleSpace rest
  | [] => []

/-! ## Embedding of `clean_text` (source: `payments/ocr.py`, lines 10-19)

Each `re.sub` of the Python function is embedded as a direct recursive
function with exactly the semantics of the substitution on the concrete
pattern. -/

/-- Embeds `txt.replace("₹", "₹")`.  (`"₹"` *is* the rupee sign, so
this substitution is the identity; it is kept for faithfulness.) -/
def repRupee (l : Text) : Text := l.map (fun c => if c = '₹' then '₹' else c)

/-- Embeds `t.replace("\xa0", " ")`. -/
def repNbsp (l : Text) : Text := l.map (fun c => if c = '\xa0' then ' ' else c)

/-- Replace every maximal run of characters satisfying `p` by one space.
Embeds `re.sub(r"[X]+", " ", t)` for a character class `X`; the flag tracks
whether we are inside a run already replaced. -/
def subRunGo (p : Char → Bool) : Bool → Text → Text
  | _, [] => []
  | inRun, c :: cs =>
    if p c then
      if inRun then subRunGo p true cs else ' ' :: subRunGo p true cs
    else c :: subRunGo p false cs

def subRun (p : Char → Bool) (l : Text) : Text := subRunGo p false l

/-- Embeds `re.sub(r"[|•·]+", " ", t)`. -/
def subBullets (l : Text) : Text := subRun bulletB l

/-- Embeds `re.sub(r"[ \t]+", " ", t)`. -/
def subHSpace (l : Text) : Text := subRun hSpaceB l

/-- Backtracking semantics of `\s*\n+` after the leading `\r?\n` of the
blank-line pattern: the greedy `\s*` with the following `\n+` consumes the
longest whitespace prefix of `l` up to and including its last `'\n'`.
Returns the remainder after that prefix, or `none` when the whitespace
prefix of `l` contains no `'\n'`. -/
def chopWs : Text → Option Text
  | [] => none
  | c :: cs =>
    if pySpaceB c then
      match chopWs cs with
      | some r => some r
      | none => if c = '\n' then some cs else none
    else none

/-- Try to match `\r?\n\s*\n+` at the head of the string; on success return
the remainder after the match.  (The greedy `\r?` commits to a leading
`'\r'` only when a `'\n'` follows, which the flat patterns capture.) -/
def tryBlank : Text → Option Text
  | '\r' :: '\n' :: cs => chopWs cs
  | '\n' :: cs => chopWs cs
  | _ => none

/-- Embeds `re.sub(r"\r?\n\s*\n+", "\n", t)`: scan left to right, replace
each non-overlapping leftmost match by a single newline.  Fueled to keep the
recursion structural (the remainder of a match is a proper suffix). -/
def subBlankGo : Nat → Text → Text
  | 0, l => l
  | _ + 1, [] => []
  | f + 1, c :: cs =>
    match tryBlank (c :: cs) with
    | some rest => '\n' :: subBlankGo f rest
    | none => c :: subBlankGo f cs

def subBlank (l : Text) : Text := subBlankGo l.length l

/-- Embeds `clean_text` from `payments/ocr.py`. -/
def clean_text (t : Text) : Text :=
  if t = [] then []
  else stripPy (subBlank (subHSpace (subBullets (repNbsp (repRupee t)))))

/-! ## Embedding of `lines` (source: `payments/ocr.py`, line 21-22) -/

/-- Python `str.splitlines()` line-break characters (first component of a
possible `\r\n` pair is handled in `splitlinesPy`). -/
def lineBreakB (c : Char) : Bool :=
  c = '\n' || c = '\r' || c = '\x0b' || c = '\x0c' ||
  c = '\x1c' || c = '\x1d' || c = '\x1e' || c = '\x85' ||
  c = '\u2028' || c = '\u2029'

/-- Embeds `str.splitlines()`: `acc` is the current line, reversed. -/
def splitlinesGo : Text → Text → List Text
  | acc, [] => if acc = [] then [] else [acc.reverse]
  | acc, '\r' :: '\n' :: rest => acc.reverse :: splitlinesGo [] rest
  | acc, c :: rest =>
    if lineBreakB c then acc.reverse :: splitlinesGo [] rest
    else splitlinesGo (c :: acc) rest

def splitlinesPy (l : Text) : List Text := splitlinesGo [] l

/-- Embeds `lines` from `payments/ocr.py`:
`[ln.strip() for ln in (txt or "").splitlines() if ln.strip()]`. -/
def linesOf (t : Text) : List Text :=
  ((splitlinesPy t).map stripPy).filter (fun ln => ln ≠ [])

/-! ## Embedding of `guess_channel` (source: `payments/ocr.py`, lines 99-107) -/

/-- Embeds `guess_channel`, including the Python operator precedence of
`"phonepe" in tl or "transaction successful" in tl and "phonepe" in tl`. -/
def guess_channel (t : Text) : Text :=
  let tl := lowerStr t
  if containsSub (txt "phonepe") tl ||
     (containsSub (txt "transaction successful") tl &&
      containsSub (txt "phonepe") tl) then txt "PhonePe"
  else if containsSub (txt "google pay") tl || containsSub (txt "gpay") tl ||
          containsSub (txt "g pay") tl then txt "GPay"
  else if containsSub (txt "paytm") tl then txt "Paytm"
  else txt "UPI"

/-- The spec-level channel enumeration; `channelOf` records how the strings
produced by `guess_channel` render the enumerated variants. -/
inductive TransactionChannel where
  | PhonePe
  | GooglePay
  | Paytm
  | GenericUPI
deriving DecidableEq, Repr

def channelOf (s : Text) : Option TransactionChannel :=
  if s = txt "PhonePe" then some .PhonePe
  else if s = txt "GPay" then some .GooglePay
  else if s = txt "Paytm" then some .Paytm
  else if s = txt "UPI" then some .GenericUPI
  else none

/-! ## Regular-expression engine

A small backtracking matcher sufficient for the concrete patterns of
`payments/ocr.py`.  It follows CPython `re` semantics: `search` returns the
leftmost match; alternation prefers the left branch; quantifiers are greedy
with backtracking; `\b` tests a word/non-word boundary; groups capture the
most recent successful span.  Starred/plussed subpatterns in the source
regexes are always single-character classes, so the star constructor takes a
character predicate directly, keeping all recursion structural. -/

inductive RE where
  | eps
  | cls (p : Char → Bool)
  | cat (a b : RE)
  | alt (a b : RE)
  | star (p : Char → Bool)
  | wordB
  | bos
  | eos
  | group (n : Nat) (a : RE)

/-- Captured groups, most recent first. -/
abbrev Groups := List (Nat × Text)

def grp (n : Nat) (g : Groups) : Option Text :=
  (g.find? (fun q => q.1 = n)).map (fun q => q.2)

/-- Python `m.group(n)` on a group that participated in the match. -/
def grpD (n : Nat) (g : Groups) : Text := (grp n g).getD []

def revApp : Text → Text → Text
  | [], acc => acc
  | c :: cs, acc => revApp cs (c :: acc)

/-- Word boundary between the already-consumed (reversed) text and the rest. -/
def isBoundary (prev rest : Text) : Bool :=
  let a := match prev with | [] => false | c :: _ => wordCharB c
  let b := match rest with | [] => false | c :: _ => wordCharB c
  a != b

def countWhile (p : Char → Bool) (l : Text) : Nat := (l.takeWhile p).length

/-- Length difference of `rest` before/after, i.e. the consumed span. -/
def takeDiff (rest after : Text) : Text := rest.take (rest.length - after.length)

/-- Greedy star over a character class: try consuming `i` characters first,
backtracking down to zero. -/
def matStar {α : Type} (i : Nat) (prev rest : Text) (g : Groups)
    (k : Text → Text → Groups → Option α) : Option α :=
  match i with
  | 0 => k prev rest g
  | j + 1 =>
    match k (revApp (rest.take (j + 1)) prev) (rest.drop (j + 1)) g with
    | some res => some res
    | none => matStar j prev rest g k

/-- The backtracking matcher in continuation-passing style.  `prev` is the
already-consumed text, reversed (needed for `\b`); the continuation receives
the new `prev`, the remaining text and the captured groups. -/
def mat {α : Type} : RE → Text → Text → Groups →
    (Text → Text → Groups → Option α) → Option α
  | .eps, prev, rest, g, k => k prev rest g
  | .cls p, prev, rest, g, k =>
    match rest with
    | [] => none
    | c :: cs => if p c then k (c :: prev) cs g else none
  | .cat a b, prev, rest, g, k =>
    mat a prev rest g (fun p r g1 => mat b p r g1 k)
  | .alt a b, prev, rest, g, k =>
    match mat a prev rest g k with
    | some res => some res
    | none => mat b prev rest g k
  | .star p, prev, rest, g, k => matStar (countWhile p rest) prev rest g k
  | .wordB, prev, rest, g, k => if isBoundary prev rest then k prev rest g else none
  | .bos, prev, rest, g, k => if prev = [] then k prev rest g else none
  | .eos, prev, rest, g, k =>
    if rest = [] || rest = ['\n'] then k prev rest g else none
  | .group n a, prev, rest, g, k =>
    mat a prev rest g (fun p r g1 => k p r ((n, takeDiff rest r) :: g1))

/-- Embeds `re.search`: try the pattern (wrapped in group 0) at each position, left
to right; on success return the groups, the consumed text (reversed) and the
remainder after the match. -/
def researchAux (r : RE) : Text → Text → Option (Groups × Text × Text)
  | prev, rest =>
    match mat (RE.group 0 r) prev rest [] (fun p rs g => some (g, p, rs)) with
    | some out => some out
    | none =>
      match rest with
      | [] => none
      | c :: cs => researchAux r (c :: prev) cs

def research (r : RE) (t : Text) : Option Groups :=
  (researchAux r [] t).map (fun out => out.1)

/-! ### Pattern combinators -/

/-- One case-sensitive literal character. -/
def chr (c : Char) : RE := .cls (fun d => d = c)

/-- One case-insensitive literal character (ASCII folding, as the sources
only use ASCII literals under `re.I`). -/
def ichr (c : Char) : RE := .cls (fun d => lowerChar d = lowerChar c)

def cats : List RE → RE
  | [] => .eps
  | [r] => r
  | r :: rs => .cat r (cats rs)

/-- Case-sensitive literal string. -/
def lit (s : String) : RE := cats (s.data.map chr)

/-- Case-insensitive literal string. -/
def ilit (s : String) : RE := cats (s.data.map ichr)

/-- Greedy `?`. -/
def opt (a : RE) : RE := .alt a .eps

/-- Pattern `p{n}` for a character class. -/
def repN (p : Char → Bool) : Nat → RE
  | 0 => .eps
  | n + 1 => .cat (.cls p) (repN p n)

/-- Greedy `p{0,n}` for a character class. -/
def upto (p : Char → Bool) : Nat → RE
  | 0 => .eps
  | n + 1 => .alt (.cat (.cls p) (upto p n)) .eps

/-- Pattern `p+` for a character class. -/
def plus (p : Char → Bool) : RE := .cat (.cls p) (.star p)

/-- Pattern `p{n,}` for a character class. -/
def atLeast (p : Char → Bool) (n : Nat) : RE := .cat (repN p n) (.star p)

/-- Pattern `p{m,n}` for a character class. -/
def rng (p : Char → Bool) (m n : Nat) : RE := .cat (repN p m) (upto p (n - m))

/-! ### The concrete patterns of `payments/ocr.py` -/

def colonSpaceB (c : Char) : Bool := c = ':' || c = ' '

def digitCommaB (c : Char) : Bool := digitB c || c = ','

def commaSpaceB (c : Char) : Bool := c = ',' || c = ' '

def colonDotB (c : Char) : Bool := c = ':' || c = '.'

/-- Class `[a-z]` under `re.I`. -/
def azCiB (c : Char) : Bool := letterB c

/-- Class `[a-z0-9._-]` under `re.I` (the VPA local part). -/
def vpaLocalB (c : Char) : Bool := letterB c || digitB c || c = '.' || c = '_' || c = '-'

/-- Class `[A-Z0-9\-]` under `re.I` (the PhonePe transaction-id token). -/
def phonpeTokB (c : Char) : Bool := letterB c || digitB c || c = '-'

/-- Class `[A-Z .@&]` under `re.I` (name tails). -/
def nameTailB (c : Char) : Bool := letterB c || c = ' ' || c = '.' || c = '@' || c = '&'

def notNlB (c : Char) : Bool := c != '\n'

/-- Source pattern `AMOUNT_RE = (?:₹|INR|Rs\.?)\s*([0-9][0-9,]*\.?[0-9]{0,2})` (no flags). -/
def AMOUNT_RE : RE :=
  .cat (.alt (chr '₹') (.alt (lit "INR") (.cat (lit "Rs") (opt (chr '.')))))
    (.cat (.star pySpaceB)
      (.group 1 (cats [.cls digitB, .star digitCommaB, opt (chr '.'), upto digitB 2])))

/-- Source pattern `GUPI_ID_RE`:
`\b(?:UPI\s*transaction\s*ID|UPI\s*Transaction\s*ID)\b[: ]*([0-9]{8,})`, `re.I`. -/
def GUPI_ID_RE : RE :=
  cats [.wordB,
    .alt (cats [ilit "UPI", .star pySpaceB, ilit "transaction", .star pySpaceB, ilit "ID"])
         (cats [ilit "UPI", .star pySpaceB, ilit "Transaction", .star pySpaceB, ilit "ID"]),
    .wordB, .star colonSpaceB, .group 1 (atLeast digitB 8)]

/-- Source pattern `PHONPE_TXN_RE = \bTransaction\s*ID\b[: ]*([A-Z0-9\-]{10,})`, `re.I`. -/
def PHONPE_TXN_RE : RE :=
  cats [.wordB, ilit "Transaction", .star pySpaceB, ilit "ID", .wordB,
    .star colonSpaceB, .group 1 (atLeast phonpeTokB 10)]

/-- Source pattern `UTR_RE = \bUTR[: ]*([0-9]{8,})`, `re.I`. -/
def UTR_RE : RE :=
  cats [.wordB, ilit "UTR", .star colonSpaceB, .group 1 (atLeast digitB 8)]

/-- Source pattern `VPA_RE = \b([a-z0-9._-]+@[a-z]+)\b`, `re.I`. -/
def VPA_RE : RE :=
  cats [.wordB, .group 1 (cats [plus vpaLocalB, chr '@', plus azCiB]), .wordB]

/-- Date group `\d{1,2}\s+[A-Za-z]{3,9}\s+\d{4}` of the datetime patterns. -/
def dateChunk : RE :=
  cats [rng digitB 1 2, plus pySpaceB, rng letterB 3 9, plus pySpaceB, repN digitB 4]

/-- Time group `\d{1,2}[:.]\d{2}\s*(?:AM|PM|am|pm)` of the datetime patterns. -/
def timeChunk : RE :=
  cats [rng digitB 1 2, .cls colonDotB, repN digitB 2, .star pySpaceB,
    .alt (lit "AM") (.alt (lit "PM") (.alt (lit "am") (lit "pm")))]

/-- Source pattern `GPAY_DT_RE = \b(<date>)[, ]+\s*(<time>)\b` (no flags). -/
def GPAY_DT_RE : RE :=
  cats [.wordB, .group 1 dateChunk, plus commaSpaceB, .star pySpaceB,
    .group 2 timeChunk, .wordB]

/-- Source pattern `PHONEPE_DT_RE = \b(<time>)\s+on\s+(<date>)\b` (no flags). -/
def PHONEPE_DT_RE : RE :=
  cats [.wordB, .group 1 timeChunk, plus pySpaceB, lit "on", plus pySpaceB,
    .group 2 dateChunk, .wordB]

/-- The bank-name alternation inside `BANK_LINE_RE` (left to right as in the
source). -/
def bankAlt : RE :=
  .alt (cats [ilit "State", plus pySpaceB, ilit "Bank", plus pySpaceB, ilit "of",
              plus pySpaceB, ilit "India"])
    (.alt (ilit "SBI")
      (.alt (ilit "ICICI")
        (.alt (ilit "HDFC")
          (.alt (ilit "Axis")
            (.alt (ilit "Kotak")
              (.alt (cats [ilit "Bank", plus pySpaceB, ilit "of", plus pySpaceB,
                           ilit "Baroda"])
                (.alt (ilit "Canara")
                  (.alt (ilit "Yes")
                    (.alt (ilit "IDFC")
                      (.alt (cats [ilit "Punjab", plus pySpaceB, ilit "National"])
                        (cats [ilit "Union", plus pySpaceB, ilit "Bank"])))))))))))

/-- Source pattern `BANK_LINE_RE = (?:Debited\s*from[: ]*)?((?:<banks>)[^\n]{0,30})`, `re.I`. -/
def BANK_LINE_RE : RE :=
  .cat (opt (cats [ilit "Debited", .star pySpaceB, ilit "from", .star colonSpaceB]))
    (.group 1 (.cat bankAlt (upto notNlB 30)))

/-- Source pattern `PAID_TO_RE = \b(Paid\s*to|To)\b[: ]*([A-Z][A-Z .@&]+)`, `re.I`. -/
def PAID_TO_RE : RE :=
  cats [.wordB,
    .group 1 (.alt (cats [ilit "Paid", .star pySpaceB, ilit "to"]) (ilit "To")),
    .wordB, .star colonSpaceB,
    .group 2 (.cat (.cls letterB) (plus nameTailB))]

/-- Source pattern `FROM_RE = \bFrom\b[: ]*([A-Z][A-Z .@&]+)`, `re.I`. -/
def FROM_RE : RE :=
  cats [.wordB, ilit "From", .wordB, .star colonSpaceB,
    .group 1 (.cat (.cls letterB) (plus nameTailB))]

/-- Source pattern `STATUS_RE = \b(Completed|Success|Successful|Failed|Pending|Declined)\b`,
`re.I`. -/
def STATUS_RE : RE :=
  cats [.wordB,
    .group 1 (.alt (ilit "Completed")
      (.alt (ilit "Success")
        (.alt (ilit "Successful")
          (.alt (ilit "Failed")
            (.alt (ilit "Pending") (ilit "Declined")))))),
    .wordB]

/-- Inline `re.search(r"\b(Sent to|To|Paid to)\b", s, re.I)` of the VPA scan. -/
def MARKER_RE : RE :=
  cats [.wordB,
    .group 1 (.alt (ilit "Sent to") (.alt (ilit "To") (ilit "Paid to"))),
    .wordB]

/-- Inline `re.search(r"^\bTo\b\s+([A-Z][A-Z .@&]+)$", s, re.I)`. -/
def TO_LINE_RE : RE :=
  cats [.bos, .wordB, ilit "To", .wordB, plus pySpaceB,
    .group 1 (.cat (.cls letterB) (plus nameTailB)), .eos]

/-- Inline `re.search(r"\bDebited\s*from\b", s, re.I)`. -/
def DEBITED_RE : RE :=
  cats [.wordB, ilit "Debited", .star pySpaceB, ilit "from", .wordB]

/-! ## Model of `datetime.strptime` (source: `payments/ocr.py`, `_parse_dt` and
`_parse_phonepe_dt`)

CPython's `strptime` compiles the format to a regex (with `re.IGNORECASE`,
whitespace runs becoming `\s+`) and then builds a `datetime`, which
validates the calendar date.  Only the directives used by the source
formats are modelled.  Since in those formats every numeric directive is
followed by `\s+`, a literal `:`, or the end, the local longest-first
alternative choice below coincides with full regex backtracking. -/

structure PyDateTime where
  year : Nat
  month : Nat
  day : Nat
  hour : Nat
  minute : Nat
deriving DecidableEq, Repr

inductive Fmt where
  | lit (c : Char)
  | ws
  | D
  | b
  | B
  | Y
  | I
  | H
  | M
  | P
deriving DecidableEq, Repr

structure PS where
  rest : Text
  day : Option Nat
  month : Option Nat
  year : Option Nat
  hour : Option Nat
  minute : Option Nat
  pm : Option Bool

def dv (c : Char) : Nat := c.toNat - '0'.toNat

def monthAbbrevs : List (String × Nat) :=
  [("jan", 1), ("feb", 2), ("mar", 3), ("apr", 4), ("may", 5), ("jun", 6),
   ("jul", 7), ("aug", 8), ("sep", 9), ("oct", 10), ("nov", 11), ("dec", 12)]

/-- Full month names, longest first, as CPython sorts the alternation. -/
def monthFulls : List (String × Nat) :=
  [("september", 9), ("february", 2), ("november", 11), ("december", 12),
   ("january", 1), ("october", 10), ("august", 8), ("march", 3),
   ("april", 4), ("june", 6), ("july", 7), ("may", 5)]

def matchNameCi (names : List (String × Nat)) (l : Text) : Option (Nat × Text) :=
  match names with
  | [] => none
  | (w, n) :: rest =>
    if lowerStr (txt w) = lowerStr (l.take (txt w).length) && (txt w).length ≤ l.length
    then some (n, l.drop (txt w).length)
    else matchNameCi rest l

/-- Directive `%d`: `(3[01]|[12]\d|0[1-9]|[1-9]| [1-9])`. -/
def stepD (s : PS) : Option PS :=
  match s.rest with
  | a :: b :: r =>
    if digitB a && digitB b && 1 ≤ 10 * dv a + dv b && 10 * dv a + dv b ≤ 31 then
      some { s with rest := r, day := some (10 * dv a + dv b) }
    else if digitB a && 1 ≤ dv a then some { s with rest := b :: r, day := some (dv a) }
    else if a = ' ' && digitB b && 1 ≤ dv b then
      some { s with rest := r, day := some (dv b) }
    else none
  | [a] => if digitB a && 1 ≤ dv a then some { s with rest := [], day := some (dv a) }
           else none
  | [] => none

/-- Directive `%I`: `(1[0-2]|0[1-9]|[1-9])`. -/
def stepI (s : PS) : Option PS :=
  match s.rest with
  | a :: b :: r =>
    if digitB a && digitB b && 1 ≤ 10 * dv a + dv b && 10 * dv a + dv b ≤ 12 then
      some { s with rest := r, hour := some (10 * dv a + dv b) }
    else if digitB a && 1 ≤ dv a then some { s with rest := b :: r, hour := some (dv a) }
    else none
  | [a] => if digitB a && 1 ≤ dv a then some { s with rest := [], hour := some (dv a) }
           else none
  | [] => none

/-- Directive `%H`: `(2[0-3]|[0-1]\d|\d)`. -/
def stepH (s : PS) : Option PS :=
  match s.rest with
  | a :: b :: r =>
    if digitB a && digitB b && 10 * dv a + dv b ≤ 23 then
      some { s with rest := r, hour := some (10 * dv a + dv b) }
    else if digitB a then some { s with rest := b :: r, hour := some (dv a) }
    else none
  | [a] => if digitB a then some { s with rest := [], hour := some (dv a) } else none
  | [] => none

/-- Directive `%M`: `([0-5]\d|\d)`. -/
def stepM (s : PS) : Option PS :=
  match s.rest with
  | a :: b :: r =>
    if digitB a && digitB b && 10 * dv a + dv b ≤ 59 then
      some { s with rest := r, minute := some (10 * dv a + dv b) }
    else if digitB a then some { s with rest := b :: r, minute := some (dv a) }
    else none
  | [a] => if digitB a then some { s with rest := [], minute := some (dv a) } else none
  | [] => none

/-- Directive `%Y`: exactly four digits. -/
def stepY (s : PS) : Option PS :=
  match s.rest with
  | a :: b :: c :: d :: r =>
    if digitB a && digitB b && digitB c && digitB d then
      let y := 1000 * dv a + 100 * dv b + 10 * dv c + dv d
      some { s with rest := r, year := some y }
    else none
  | _ => none

/-- Directive `%p`: `AM|PM`, case-insensitive. -/
def stepP (s : PS) : Option PS :=
  match s.rest with
  | a :: b :: r =>
    if lowerChar a = 'a' && lowerChar b = 'm' then
      some { s with rest := r, pm := some false }
    else if lowerChar a = 'p' && lowerChar b = 'm' then
      some { s with rest := r, pm := some true }
    else none
  | _ => none

def stepFmt (f : Fmt) (s : PS) : Option PS :=
  match f with
  | .lit c => match s.rest with
              | d :: r => if d = c then some { s with rest := r } else none
              | [] => none
  | .ws => match s.rest with
           | d :: r => if pySpaceB d then
                some { s with rest := (d :: r).dropWhile pySpaceB } else none
           | [] => none
  | .D => stepD s
  | .I => stepI s
  | .H => stepH s
  | .M => stepM s
  | .Y => stepY s
  | .b => match matchNameCi monthAbbrevs s.rest with
          | some (n, r) => some { s with rest := r, month := some n }
          | none => none
  | .B => match matchNameCi monthFulls s.rest with
          | some (n, r) => some { s with rest := r, month := some n }
          | none => none
  | .P => stepP s

def runFmts (fs : List Fmt) (s : PS) : Option PS :=
  match fs with
  | [] => some s
  | f :: rest => match stepFmt f s with
                 | some s1 => runFmts rest s1
                 | none => none

def isLeapYear (y : Nat) : Bool := y % 4 = 0 && (y % 100 ≠ 0 || y % 400 = 0)

def daysInMonth (y m : Nat) : Nat :=
  if m = 2 then (if isLeapYear y then 29 else 28)
  else if m = 4 || m = 6 || m = 9 || m = 11 then 30
  else 31

/-- Final step of `strptime`: merge the 12-hour clock with `%p` as CPython
does, then validate via the `datetime` constructor. -/
def finishDT (s : PS) : Option PyDateTime :=
  let y := s.year.getD 1900
  let mo := s.month.getD 1
  let d := s.day.getD 1
  let h0 := s.hour.getD 0
  let h := match s.pm with
           | none => h0
           | some false => if h0 = 12 then 0 else h0
           | some true => if h0 = 12 then 12 else h0 + 12
  let mi := s.minute.getD 0
  if 1 ≤ y && y ≤ 9999 && 1 ≤ mo && mo ≤ 12 && 1 ≤ d && d ≤ daysInMonth y mo &&
     h ≤ 23 && mi ≤ 59 then
    some ⟨y, mo, d, h, mi⟩
  else none

/-- One `datetime.strptime(input, fmt)` attempt: the whole input must be
consumed. -/
def strptime (fs : List Fmt) (input : Text) : Option PyDateTime :=
  match runFmts fs ⟨input, none, none, none, none, none, none⟩ with
  | some s => if s.rest = [] then finishDT s else none
  | none => none

def fmtGp1 : List Fmt := [.D, .ws, .b, .ws, .Y, .ws, .I, .lit ':', .M, .ws, .P]

def fmtGp2 : List Fmt := [.D, .ws, .B, .ws, .Y, .ws, .I, .lit ':', .M, .ws, .P]

def fmtGp3 : List Fmt := [.D, .ws, .b, .ws, .Y, .ws, .H, .lit ':', .M]

def fmtGp4 : List Fmt := [.D, .ws, .B, .ws, .Y, .ws, .H, .lit ':', .M]

def fmtPp1 : List Fmt := [.I, .lit ':', .M, .ws, .P, .ws, .D, .ws, .b, .ws, .Y]

def fmtPp2 : List Fmt := [.I, .lit ':', .M, .ws, .P, .ws, .D, .ws, .B, .ws, .Y]

def fmtPp3 : List Fmt := [.H, .lit ':', .M, .ws, .D, .ws, .b, .ws, .Y]

def fmtPp4 : List Fmt := [.H, .lit ':', .M, .ws, .D, .ws, .B, .ws, .Y]

def firstSome {α : Type} : List (Option α) → Option α
  | [] => none
  | some a :: _ => some a
  | none :: rest => firstSome rest

/-- Embeds `_parse_dt(date_part, time_part)`: four formats tried in order on
`f"{date_part} {time_part}"`. -/
def parse_dt (datePart timePart : Text) : Option PyDateTime :=
  let joined := datePart ++ ' ' :: timePart
  firstSome [strptime fmtGp1 joined, strptime fmtGp2 joined,
             strptime fmtGp3 joined, strptime fmtGp4 joined]

/-- Embeds `_parse_phonepe_dt(m)`: `m.group(1)` is the time, `m.group(2)`
the date; four formats tried in order on `f"{time_part} {date_part}"`. -/
def parse_phonepe_dt (g : Groups) : Option PyDateTime :=
  let joined := grpD 1 g ++ ' ' :: grpD 2 g
  firstSome [strptime fmtPp1 joined, strptime fmtPp2 joined,
             strptime fmtPp3 joined, strptime fmtPp4 joined]

/-! ## Embedding of `_safe_float` (source: `payments/ocr.py`, lines 64-68)

Python parses the captured amount with `float`.  Every string reaching this
helper matches `[0-9][0-9,]*\.?[0-9]{0,2}` with the commas removed, i.e. an
exact decimal with at most two fractional digits; two such decimals are
equal as Python floats exactly when they are equal as real numbers, so the
value is modelled as a canonically-normalized decimal
`mantissa / 10 ^ scale` (trailing zero digits of the fraction removed). -/

structure PyFloat where
  mantissa : Nat
  scale : Nat
deriving DecidableEq, Repr

/-- Canonical form of `m / 10 ^ k`: strip factors of ten while the scale is
positive. -/
def normPF : Nat → Nat → PyFloat
  | m, 0 => ⟨m, 0⟩
  | m, k + 1 => if m % 10 = 0 then normPF (m / 10) k else ⟨m, k + 1⟩

def natOfDigits (l : Text) : Nat := l.foldl (fun acc c => 10 * acc + dv c) 0

def splitAtDot (l : Text) : Text × Option Text :=
  match l.findIdx? (fun c => c = '.') with
  | none => (l, none)
  | some i => (l.take i, some (l.drop (i + 1)))

/-- Embeds `_safe_float`: remove commas, then parse `digits[.digits]`;
any other shape yields `none` (the `except` branch). -/
def safe_float (s : Text) : Option PyFloat :=
  let s2 := s.filter (fun c => c ≠ ',')
  let (ip, fpOpt) := splitAtDot s2
  match fpOpt with
  | none =>
    if s2 ≠ [] && s2.all digitB then some (normPF (natOfDigits s2) 0) else none
  | some fp =>
    if (ip ≠ [] || fp ≠ []) && ip.all digitB && fp.all digitB &&
       !fp.any (fun c => c = '.') then
      some (normPF (natOfDigits ip * 10 ^ fp.length + natOfDigits fp) fp.length)
    else none

/-- ASCII model of Python `str.title()` (only applied to the lowercased
status words in the source): uppercase a letter after a non-letter,
lowercase a letter after a letter. -/
def titleGo : Bool → Text → Text
  | _, [] => []
  | prevAlpha, c :: cs =>
    if letterB c then
      (if prevAlpha then lowerChar c else c.toUpper) :: titleGo true cs
    else c :: titleGo false cs

def titleWord (l : Text) : Text := titleGo false l

/-! ## The extractor (source: `payments/ocr.py`, lines 113-217) -/

structure ExtractedRecord where
  channel : Text
  payer_name : Option Text
  payee_name : Option Text
  payee_vpa : Option Text
  bank_name : Option Text
  amount_inr : Option PyFloat
  currency : Text
  utr : Option Text
  upi_txn_id : Option Text
  txn_status : Option Text
  txn_time : Option PyDateTime
deriving DecidableEq, Repr

/-- Python truthiness of the `Option Text` fields (`None` and `""` falsy). -/
def truthy : Option Text → Bool
  | none => false
  | some l => l ≠ []

/-- The VPA marker scan of `extract`: for each line holding a
"Sent to"/"To"/"Paid to" marker, search that line joined with the next two
for a VPA; the first hit (lowercased) wins, otherwise continue. -/
def joinSpace : List Text → Text
  | [] => []
  | [l] => l
  | l :: rest => l ++ ' ' :: joinSpace rest

def vpaNearScan : List Text → Option Text
  | [] => none
  | s :: rest =>
    if (research MARKER_RE s).isSome then
      match research VPA_RE (joinSpace (s :: rest.take 2)) with
      | some g => some (lowerStr (grpD 1 g))
      | none => vpaNearScan rest
    else vpaNearScan rest

/-- The `ln[:6]` scan for a standalone `To NAME` line. -/
def toLineScan : List Text → Option Text
  | [] => none
  | s :: rest =>
    match research TO_LINE_RE s with
    | some g => some (stripPy (grpD 1 g))
    | none => toLineScan rest

/-- Index of the first occurrence of `sep` in the string, if any. -/
def findSubIdx (sep : Text) : Text → Option Nat
  | [] => if sep = [] then some 0 else none
  | c :: rest =>
    if sep.isPrefixOf (c :: rest) then some 0
    else (findSubIdx sep rest).map (fun i => i + 1)

/-- Python `s.split("Debited from", 1)[-1]`: the part after the first
occurrence of the separator, or the whole string when absent. -/
def splitAfterDebited (s : Text) : Text :=
  match findSubIdx (txt "Debited from") s with
  | some i => s.drop (i + (txt "Debited from").length)
  | none => s

/-- The `Debited from` line scan of `extract`. -/
def debitedScan : List Text → Option Text
  | [] => none
  | s :: rest =>
    if (research DEBITED_RE s).isSome then
      some (stripColMinusSpace (splitAfterDebited s))
    else debitedScan rest

/-- Embeds `extract` from `payments/ocr.py`. -/
def extract (text : Text) : ExtractedRecord :=
  let t := clean_text text
  let ln := linesOf t
  let amount_inr := match research AMOUNT_RE t with
    | some g => safe_float (grpD 1 g)
    | none => none
  let upi_txn_id := match (match research GUPI_ID_RE t with
                           | some g => some g
                           | none => research PHONPE_TXN_RE t) with
    | some g => some (stripPy (grpD 1 g))
    | none => none
  let utr := match research UTR_RE t with
    | some g => some (stripPy (grpD 1 g))
    | none => none
  let vpaNear := vpaNearScan ln
  let payee_vpa := match vpaNear with
    | some v => some v
    | none => match research VPA_RE t with
              | some g => some (lowerStr (grpD 1 g))
              | none => none
  let payee_name0 := match research PAID_TO_RE t with
    | some g => some (replaceDoubleSpace (stripPy (grpD 2 g)))
    | none => none
  let payee_name := if truthy payee_name0 then payee_name0
    else match toLineScan (ln.take 6) with
         | some v => some v
         | none => payee_name0
  let payer_name := match research FROM_RE t with
    | some g => some (stripPy (grpD 1 g))
    | none => none
  let bank_name0 := debitedScan ln
  let bank_name := if truthy bank_name0 then bank_name0
    else match research BANK_LINE_RE t with
         | some g => some (stripPy (grpD 1 g))
         | none => bank_name0
  let txn_status := match research STATUS_RE t with
    | some g =>
      let word := lowerStr (grpD 1 g)
      if startsWith (txt "success") word then some (txt "Successful")
      else some (titleWord word)
    | none => none
  let txn_time := match research GPAY_DT_RE t with
    | some g => parse_dt (grpD 1 g) (grpD 2 g)
    | none => match research PHONEPE_DT_RE t with
              | some g => parse_phonepe_dt g
              | none => none
  { channel := guess_channel t
    payer_name := payer_name
    payee_name := payee_name
    payee_vpa := payee_vpa
    bank_name := bank_name
    amount_inr := amount_inr
    currency := txt "INR"
    utr := utr
    upi_txn_id := upi_txn_id
    txn_status := txn_status
    txn_time := txn_time }

/-! ## Embedding of `payer_vpa_guess` (source: `payments/models.py`, lines 50-62) -/

/-- Class `[\w\.\-]` of the model-level `_VPA_RE`. -/
def vpaWordB (c : Char) : Bool := wordCharB c || c = '.' || c = '-'

/-- Source pattern `_VPA_RE = \b[\w\.\-]+@[\w]+\b`, `re.I` (from `payments/models.py`). -/
def MODEL_VPA_RE : RE :=
  cats [.wordB, plus vpaWordB, chr '@', plus wordCharB, .wordB]

/-- The fields of the `Payment` model that `payer_vpa_guess` reads.  An
absent (`NULL`) or empty `raw_text` both behave as falsy in the source, so
`raw_text = []` covers both. -/
structure PaymentRec where
  raw_text : Text
  payee_vpa : Option Text
deriving DecidableEq, Repr

/-- The `finditer` loop of `payer_vpa_guess`: successive non-overlapping
matches; skip a match whose lowercase equals the (truthy) payee VPA
lowercased; return the first kept match, else the empty string.  Fueled:
every `_VPA_RE` match is non-empty, so the rest strictly shrinks. -/
def pvGo (payee : Option Text) : Nat → Text → Text → Text
  | 0, _, _ => []
  | f + 1, prev, rest =>
    match researchAux MODEL_VPA_RE prev rest with
    | none => []
    | some (g, p, r) =>
      let v := lowerStr (grpD 0 g)
      if truthy payee && v = lowerStr (payee.getD []) then pvGo payee f p r
      else v

/-- Embeds `payer_vpa_guess` from `payments/models.py`. -/
def payer_vpa_guess (rec : PaymentRec) : Text :=
  if rec.raw_text = [] then []
  else pvGo rec.payee_vpa (rec.raw_text.length + 1) [] rec.raw_text

/-! ## Idempotence of `clean_text`

The second application of every stage of `clean_text` is the identity on the
output of the first application.  The lemmas below establish, for each
stage, (a) which inputs it fixes, (b) which characters its output can
contain, and (c) the structural invariants its output satisfies. -/

theorem repRupee_id (l : Text) : repRupee l = l := by
  induction l with
  | nil => rfl
  | cons c cs ih =>
    simp only [repRupee, List.map_cons] at *
    rw [ih]
    split <;> simp_all

theorem repNbsp_id {l : Text} (h : '\xa0' ∉ l) : repNbsp l = l := by
  induction l with
  | nil => rfl
  | cons c cs ih =>
    have hc : c ≠ '\xa0' := fun hh => h (hh ▸ List.mem_cons_self _ _)
    have ih2 := ih (fun hm => h (List.mem_cons_of_mem _ hm))
    simp only [repNbsp, List.map_cons] at ih2 ⊢
    rw [ih2, if_neg hc]

theorem not_nbsp_mem_repNbsp {l : Text} : '\xa0' ∉ repNbsp l := by
  intro h
  rw [repNbsp, List.mem_map] at h
  obtain ⟨c, _, hc⟩ := h
  by_cases h1 : c = '\xa0' <;> simp [h1] at hc

theorem mem_subRunGo {p : Char → Bool} {b : Bool} {l : Text} {x : Char}
    (h : x ∈ subRunGo p b l) : x ∈ l ∨ x = ' ' := by
  induction l generalizing b with
  | nil => simp [subRunGo] at h
  | cons c cs ih =>
    simp only [subRunGo] at h
    split at h
    · split at h
      · rcases ih h with h1 | h1
        · exact Or.inl (List.mem_cons_of_mem _ h1)
        · exact Or.inr h1
      · rcases List.mem_cons.mp h with h1 | h1
        · exact Or.inr h1
        · rcases ih h1 with h2 | h2
          · exact Or.inl (List.mem_cons_of_mem _ h2)
          · exact Or.inr h2
    · rcases List.mem_cons.mp h with h1 | h1
      · exact Or.inl (h1 ▸ List.mem_cons_self _ _)
      · rcases ih h1 with h2 | h2
        · exact Or.inl (List.mem_cons_of_mem _ h2)
        · exact Or.inr h2

/-- Characters of `subRunGo` output: old characters that fail `p`, or the
replacement space. -/
theorem mem_subRunGo_out {p : Char → Bool} {b : Bool} {l : Text} {x : Char}
    (h : x ∈ subRunGo p b l) : (x ∈ l ∧ p x = false) ∨ x = ' ' := by
  induction l generalizing b with
  | nil => simp [subRunGo] at h
  | cons c cs ih =>
    simp only [subRunGo] at h
    split at h
    · split at h
      · rcases ih h with ⟨h1, h2⟩ | h1
        · exact Or.inl ⟨List.mem_cons_of_mem _ h1, h2⟩
        · exact Or.inr h1
      · rcases List.mem_cons.mp h with h1 | h1
        · exact Or.inr h1
        · rcases ih h1 with ⟨h2, h3⟩ | h2
          · exact Or.inl ⟨List.mem_cons_of_mem _ h2, h3⟩
          · exact Or.inr h2
    · rcases List.mem_cons.mp h with h1 | h1
      · subst h1
        rename_i hpc
        exact Or.inl ⟨List.mem_cons_self _ _, by simpa using hpc⟩
      · rcases ih h1 with ⟨h2, h3⟩ | h2
        · exact Or.inl ⟨List.mem_cons_of_mem _ h2, h3⟩
        · exact Or.inr h2

theorem subRunGo_id {p : Char → Bool} {l : Text}
    (h : ∀ x ∈ l, p x = false) : subRunGo p false l = l := by
  induction l with
  | nil => rfl
  | cons c cs ih =>
    have hc : p c = false := h c (List.mem_cons_self _ _)
    simp only [subRunGo, hc]
    simp only [Bool.false_eq_true, if_false, List.cons.injEq, true_and]
    exact ih (fun x hx => h x (List.mem_cons_of_mem _ hx))

/-- No two adjacent characters are both horizontal whitespace. -/
def noTwoHS (l : Text) : Prop :=
  List.Chain' (fun a b => ¬(hSpaceB a = true ∧ hSpaceB b = true)) l

/-- After skipping a run, the next emitted character fails `p`. -/
theorem head_subRunGo_true {p : Char → Bool} {l : Text} {x : Char}
    (h : x ∈ (subRunGo p true l).head?) : p x = false := by
  induction l with
  | nil => simp [subRunGo] at h
  | cons c cs ih =>
    simp only [subRunGo] at h
    split at h
    · exact ih h
    · rename_i hpc
      simp only [List.head?_cons, Option.mem_def, Option.some.injEq] at h
      subst h
      simpa using hpc

theorem noTwoHS_subRunGo {b : Bool} {l : Text} : noTwoHS (subRunGo hSpaceB b l) := by
  induction l generalizing b with
  | nil => simp [subRunGo, noTwoHS]
  | cons c cs ih =>
    simp only [subRunGo]
    split
    · split
      · exact ih
      · rw [noTwoHS, List.chain'_cons']
        refine ⟨?_, ih⟩
        intro y hy h2
        have := head_subRunGo_true hy
        rw [this] at h2
        exact absurd h2.2 (by simp)
    · rw [noTwoHS, List.chain'_cons']
      refine ⟨?_, ih⟩
      intro y hy h2
      rename_i hpc
      exact hpc h2.1

theorem subRunGo_true_eq_false {p : Char → Bool} {l : Text}
    (h : ∀ x ∈ l.head?, p x = false) : subRunGo p true l = subRunGo p false l := by
  cases l with
  | nil => rfl
  | cons c cs =>
    have hc : p c = false := h c (by simp)
    simp only [subRunGo, hc]
    simp

theorem subHSpace_id {l : Text} (hTab : '\t' ∉ l) (hTwo : noTwoHS l) :
    subHSpace l = l := by
  rw [subHSpace, subRun]
  induction l with
  | nil => rfl
  | cons c cs ih =>
    rw [noTwoHS, List.chain'_cons'] at hTwo
    by_cases hc : hSpaceB c = true
    · have hcs : c = ' ' := by
        rcases (by simpa [hSpaceB] using hc : c = ' ' ∨ c = '\t') with h | h
        · exact h
        · exact absurd (h ▸ List.mem_cons_self _ _) hTab
      simp only [subRunGo, hc, if_true]
      rw [if_neg (by decide)]
      rw [subRunGo_true_eq_false]
      · rw [hcs]
        congr 1
        exact ih (fun hm => hTab (List.mem_cons_of_mem _ hm)) hTwo.2
      · intro x hx
        by_contra hpx
        exact hTwo.1 x hx ⟨hc, by simpa using hpx⟩
    · simp only [subRunGo, hc]
      rw [if_neg (by simp [hc])]
      congr 1
      exact ih (fun hm => hTab (List.mem_cons_of_mem _ hm)) hTwo.2

theorem chopWs_suffix {l r : Text} (h : chopWs l = some r) : r <:+ l := by
  induction l with
  | nil => simp [chopWs] at h
  | cons c cs ih =>
    simp only [chopWs] at h
    split at h
    · cases h2 : chopWs cs with
      | some r2 =>
        rw [h2] at h
        have hr := Option.some.inj h
        subst hr
        exact (ih h2).trans (List.suffix_cons _ _)
      | none =>
        rw [h2] at h
        by_cases h3 : c = '\n'
        · rw [if_pos h3] at h
          have hr := Option.some.inj h
          subst hr
          exact List.suffix_cons _ _
        · rw [if_neg h3] at h
          cases h
    · cases h

theorem chopWs_length {l r : Text} (h : chopWs l = some r) : r.length < l.length := by
  induction l with
  | nil => simp [chopWs] at h
  | cons c cs ih =>
    simp only [chopWs] at h
    split at h
    · cases h2 : chopWs cs with
      | some r2 =>
        rw [h2] at h
        have hr := Option.some.inj h
        subst hr
        have := ih h2
        simp only [List.length_cons]
        omega
      | none =>
        rw [h2] at h
        by_cases h3 : c = '\n'
        · rw [if_pos h3] at h
          have hr := Option.some.inj h
          subst hr
          simp
        · rw [if_neg h3] at h
          cases h
    · cases h

theorem chopWs_none_iff {l : Text} :
    chopWs l = none ↔ '\n' ∉ l.takeWhile pySpaceB := by
  induction l with
  | nil => simp [chopWs]
  | cons c cs ih =>
    simp only [chopWs]
    by_cases hc : pySpaceB c = true
    · rw [if_pos hc, List.takeWhile_cons_of_pos hc]
      cases h2 : chopWs cs with
      | some r2 =>
        simp only [List.mem_cons]
        constructor
        · intro h3; cases h3
        · intro h3
          exact absurd (ih.mpr (fun hm => h3 (Or.inr hm))) (by simp [h2])
      | none =>
        have hcs := ih.mp h2
        by_cases h3 : c = '\n'
        · subst h3
          simp
        · rw [if_neg h3]
          simp only [List.mem_cons]
          constructor
          · intro _ h4
            rcases h4 with h4 | h4
            · exact h3 h4.symm
            · exact hcs h4
          · intro _
            trivial
    · rw [if_neg hc, List.takeWhile_cons_of_neg (by simpa using hc)]
      simp

theorem chopWs_some_wsNl {l r : Text} (h : chopWs l = some r) :
    '\n' ∉ r.takeWhile pySpaceB := by
  induction l with
  | nil => simp [chopWs] at h
  | cons c cs ih =>
    simp only [chopWs] at h
    split at h
    · cases h2 : chopWs cs with
      | some r2 =>
        rw [h2] at h
        have hr := Option.some.inj h
        subst hr
        exact ih h2
      | none =>
        rw [h2] at h
        by_cases h3 : c = '\n'
        · rw [if_pos h3] at h
          have hr := Option.some.inj h
          subst hr
          exact chopWs_none_iff.mp h2
        · rw [if_neg h3] at h
          cases h
    · cases h

theorem tryBlank_cons_nl {X : Text} : tryBlank ('\n' :: X) = chopWs X := by
  cases X with
  | nil => rfl
  | cons d ds => rfl

theorem tryBlank_some_inv {l r : Text} (h : tryBlank l = some r) :
    (∃ cs, l = '\n' :: cs ∧ chopWs cs = some r) ∨
    (∃ cs, l = '\r' :: '\n' :: cs ∧ chopWs cs = some r) := by
  rw [tryBlank.eq_def] at h
  split at h
  · rename_i cs
    exact Or.inr ⟨cs, rfl, h⟩
  · rename_i cs
    exact Or.inl ⟨cs, rfl, h⟩
  · cases h

theorem tryBlank_suffix {l r : Text} (h : tryBlank l = some r) : r <:+ l := by
  rcases tryBlank_some_inv h with ⟨cs, h1, h2⟩ | ⟨cs, h1, h2⟩
  · subst h1
    exact (chopWs_suffix h2).trans (List.suffix_cons _ _)
  · subst h1
    exact ((chopWs_suffix h2).trans (List.suffix_cons _ _)).trans (List.suffix_cons _ _)

theorem tryBlank_length {l r : Text} (h : tryBlank l = some r) :
    r.length < l.length := by
  rcases tryBlank_some_inv h with ⟨cs, h1, h2⟩ | ⟨cs, h1, h2⟩
  · subst h1
    have := chopWs_length h2
    simp only [List.length_cons]
    omega
  · subst h1
    have := chopWs_length h2
    simp only [List.length_cons]
    omega

theorem tryBlank_cons_other {c : Char} {X : Text} (h1 : c ≠ '\r') (h2 : c ≠ '\n') :
    tryBlank (c :: X) = none := by
  rw [tryBlank.eq_def]
  split <;> simp_all

theorem tryBlank_r_not_nl {d : Char} {X : Text} (hd : d ≠ '\n') :
    tryBlank ('\r' :: d :: X) = none := by
  rw [tryBlank.eq_def]
  split <;> simp_all

/-- The output head of the blank-line pass is the input head or a newline. -/
theorem head_subBlankGo (f : Nat) (l : Text) :
    (subBlankGo f l).head? = l.head? ∨ (subBlankGo f l).head? = some '\n' := by
  cases f with
  | zero => exact Or.inl rfl
  | succ f =>
    cases l with
    | nil => exact Or.inl rfl
    | cons c cs =>
      simp only [subBlankGo]
      cases htb : tryBlank (c :: cs) with
      | some rest => exact Or.inr rfl
      | none => exact Or.inl rfl

theorem mem_subBlankGo {x : Char} : ∀ {f : Nat} {l : Text},
    x ∈ subBlankGo f l → x ∈ l ∨ x = '\n' := by
  intro f
  induction f with
  | zero => exact fun h => Or.inl h
  | succ f ih =>
    intro l h
    cases l with
    | nil => simp [subBlankGo] at h
    | cons c cs =>
      simp only [subBlankGo] at h
      cases htb : tryBlank (c :: cs) with
      | some rest =>
        rw [htb] at h
        simp only [List.mem_cons] at h
        rcases h with h | h
        · exact Or.inr h
        · rcases ih h with h1 | h1
          · exact Or.inl ((tryBlank_suffix htb).sublist.subset h1)
          · exact Or.inr h1
      | none =>
        rw [htb] at h
        simp only [List.mem_cons] at h
        rcases h with h | h
        · exact Or.inl (h ▸ List.mem_cons_self _ _)
        · rcases ih h with h1 | h1
          · exact Or.inl (List.mem_cons_of_mem _ h1)
          · exact Or.inr h1

/-- The blank-line pass preserves "the whitespace prefix has no newline". -/
theorem wp_subBlankGo : ∀ {f : Nat} {l : Text},
    '\n' ∉ l.takeWhile pySpaceB → '\n' ∉ (subBlankGo f l).takeWhile pySpaceB := by
  intro f
  induction f with
  | zero => exact fun h => h
  | succ f ih =>
    intro l h
    cases l with
    | nil => exact h
    | cons c cs =>
      simp only [subBlankGo]
      cases htb : tryBlank (c :: cs) with
      | some rest =>
        exfalso
        rcases tryBlank_some_inv htb with ⟨cs2, he, _⟩ | ⟨cs2, he, _⟩
        · have hc : c = '\n' := (List.cons.inj he).1
          subst hc
          rw [List.takeWhile_cons_of_pos (by decide)] at h
          exact h (List.mem_cons_self _ _)
        · have hc : c = '\r' := (List.cons.inj he).1
          have hcs : cs = '\n' :: cs2 := (List.cons.inj he).2
          subst hc
          subst hcs
          rw [List.takeWhile_cons_of_pos (by decide),
              List.takeWhile_cons_of_pos (by decide)] at h
          exact h (List.mem_cons_of_mem _ (List.mem_cons_self _ _))
      | none =>
        by_cases hc : pySpaceB c = true
        · rw [List.takeWhile_cons_of_pos hc] at h ⊢
          simp only [List.mem_cons] at h ⊢
          push_neg at h ⊢
          exact ⟨h.1, ih h.2⟩
        · rw [List.takeWhile_cons_of_neg (by simpa using hc)]
          simp

/-- No suffix of `l` starts a blank-line match. -/
def noBlank (l : Text) : Prop := ∀ s, s <:+ l → tryBlank s = none

theorem noBlank_nil : noBlank [] := by
  intro s hs
  rw [List.suffix_nil.mp hs]
  rfl

theorem noBlank_cons {c : Char} {l : Text} :
    noBlank (c :: l) ↔ tryBlank (c :: l) = none ∧ noBlank l := by
  constructor
  · intro h
    exact ⟨h _ (List.suffix_refl _),
      fun s hs => h s (hs.trans (List.suffix_cons _ _))⟩
  · rintro ⟨h1, h2⟩ s hs
    rcases List.suffix_cons_iff.mp hs with h3 | h3
    · rw [h3]
      exact h1
    · exact h2 s h3

theorem noBlank_suffix {l s : Text} (h : noBlank l) (hs : s <:+ l) : noBlank s :=
  fun u hu => h u (hu.trans hs)

/-- The blank-line pass leaves no blank-line match in its output. -/
theorem noBlank_subBlankGo : ∀ {f : Nat} {l : Text},
    l.length ≤ f → noBlank (subBlankGo f l) := by
  intro f
  induction f with
  | zero =>
    intro l h
    rw [List.length_eq_zero.mp (Nat.le_zero.mp h)]
    exact noBlank_nil
  | succ f ih =>
    intro l h
    cases l with
    | nil => simpa [subBlankGo] using noBlank_nil
    | cons c cs =>
      have hcs : cs.length ≤ f := by
        simp only [List.length_cons] at h
        omega
      simp only [subBlankGo]
      cases htb : tryBlank (c :: cs) with
      | some rest =>
        rw [noBlank_cons]
        constructor
        · rw [tryBlank_cons_nl, chopWs_none_iff]
          apply wp_subBlankGo
          rcases tryBlank_some_inv htb with ⟨cs2, _, hc2⟩ | ⟨cs2, _, hc2⟩ <;>
            exact chopWs_some_wsNl hc2
        · have hlt : rest.length ≤ f := by
            have := tryBlank_length htb
            simp only [List.length_cons] at this
            omega
          exact ih hlt
      | none =>
        rw [noBlank_cons]
        refine ⟨?_, ih hcs⟩
        by_cases hcr : c = '\r'
        · subst hcr
          cases cs with
          | nil =>
            have h0 : subBlankGo f ([] : Text) = [] := by
              cases f <;> rfl
            rw [h0]
            rfl
          | cons d cs2 =>
            obtain ⟨f2, hf2⟩ : ∃ f2, f = f2 + 1 := by
              cases f with
              | zero => simp at hcs
              | succ f2 => exact ⟨f2, rfl⟩
            subst hf2
            by_cases hd : d = '\n'
            · subst hd
              have hch : chopWs cs2 = none := htb
              have hX : subBlankGo (f2 + 1) ('\n' :: cs2) =
                  '\n' :: subBlankGo f2 cs2 := by
                simp only [subBlankGo, tryBlank_cons_nl, hch]
              rw [hX]
              show chopWs (subBlankGo f2 cs2) = none
              rw [chopWs_none_iff]
              exact wp_subBlankGo (chopWs_none_iff.mp hch)
            · cases htb2 : tryBlank (d :: cs2) with
              | some rest2 =>
                have hX : subBlankGo (f2 + 1) (d :: cs2) =
                    '\n' :: subBlankGo f2 rest2 := by
                  simp only [subBlankGo, htb2]
                rw [hX]
                show chopWs (subBlankGo f2 rest2) = none
                rw [chopWs_none_iff]
                apply wp_subBlankGo
                rcases tryBlank_some_inv htb2 with ⟨cs3, he, hc3⟩ | ⟨cs3, he, hc3⟩
                · exact absurd (List.cons.inj he).1 hd
                · exact chopWs_some_wsNl hc3
              | none =>
                have hX : subBlankGo (f2 + 1) (d :: cs2) =
                    d :: subBlankGo f2 cs2 := by
                  simp only [subBlankGo, htb2]
                rw [hX]
                exact tryBlank_r_not_nl hd
        · by_cases hcn : c = '\n'
          · subst hcn
            have hch : chopWs cs = none := by
              rw [tryBlank_cons_nl] at htb
              exact htb
            rw [tryBlank_cons_nl, chopWs_none_iff]
            exact wp_subBlankGo (chopWs_none_iff.mp hch)
          · exact tryBlank_cons_other hcr hcn

/-- The blank-line pass is the identity on blank-free text. -/
theorem subBlankGo_id : ∀ {f : Nat} {l : Text}, noBlank l → subBlankGo f l = l := by
  intro f
  induction f with
  | zero => exact fun _ => rfl
  | succ f ih =>
    intro l h
    cases l with
    | nil => rfl
    | cons c cs =>
      rw [noBlank_cons] at h
      simp only [subBlankGo, h.1]
      rw [ih h.2]

/-- The blank-line pass preserves the no-adjacent-horizontal-space property. -/
theorem noTwoHS_subBlankGo : ∀ {f : Nat} {l : Text},
    noTwoHS l → noTwoHS (subBlankGo f l) := by
  intro f
  induction f with
  | zero => exact fun h => h
  | succ f ih =>
    intro l h
    cases l with
    | nil => simpa [subBlankGo] using h
    | cons c cs =>
      simp only [subBlankGo]
      cases htb : tryBlank (c :: cs) with
      | some rest =>
        rw [noTwoHS, List.chain'_cons']
        constructor
        · intro y _ h2
          exact absurd h2.1 (by decide)
        · exact ih (List.Chain'.suffix h
            ((tryBlank_suffix htb).trans (List.suffix_refl _)))
      | none =>
        rw [noTwoHS, List.chain'_cons']
        rw [noTwoHS, List.chain'_cons'] at h
        constructor
        · intro y hy h2
          rcases head_subBlankGo f cs with h3 | h3
          · rw [h3] at hy
            exact h.1 y hy h2
          · rw [h3] at hy
            simp only [Option.mem_def, Option.some.injEq] at hy
            subst hy
            exact absurd h2.2 (by decide)
        · exact ih h.2

theorem head_dropWhile_not (p : Char → Bool) (l : Text) :
    ∀ x ∈ (l.dropWhile p).head?, p x = false := by
  induction l with
  | nil => simp [List.dropWhile]
  | cons c cs ih =>
    by_cases hc : p c = true
    · rw [List.dropWhile_cons_of_pos hc]
      exact ih
    · rw [List.dropWhile_cons_of_neg (by simpa using hc)]
      intro x hx
      simp only [List.head?_cons, Option.mem_def, Option.some.injEq] at hx
      subst hx
      simpa using hc

theorem dropWhile_id_of_head {p : Char → Bool} {l : Text}
    (h : ∀ x ∈ l.head?, p x = false) : l.dropWhile p = l := by
  cases l with
  | nil => rfl
  | cons c cs =>
    have := h c (by simp)
    rw [List.dropWhile_cons_of_neg (by simp [this])]

theorem rstripBy_decomp (p : Char → Bool) (l : Text) :
    l = rstripBy p l ++ (l.reverse.takeWhile p).reverse := by
  rw [rstripBy]
  conv_lhs => rw [← List.reverse_reverse l,
    ← List.takeWhile_append_dropWhile (p := p) (l := l.reverse)]
  rw [List.reverse_append]

theorem rstripBy_pref (p : Char → Bool) (l : Text) : rstripBy p l <+: l :=
  ⟨(l.reverse.takeWhile p).reverse, (rstripBy_decomp p l).symm⟩

theorem chopWs_append_ws {l w : Text} :
    ∀ {r : Text}, chopWs l = some r → ∃ r2, chopWs (l ++ w) = some r2 := by
  induction l with
  | nil => intro r h; simp [chopWs] at h
  | cons c cs ih =>
    intro r h
    simp only [chopWs] at h
    split at h
    · rename_i hc
      rw [List.cons_append]
      simp only [chopWs, hc, if_true]
      cases h2 : chopWs cs with
      | some r1 =>
        obtain ⟨r2, hr2⟩ := ih h2
        rw [hr2]
        exact ⟨r2, rfl⟩
      | none =>
        rw [h2] at h
        by_cases h3 : c = '\n'
        · cases h4 : chopWs (cs ++ w) with
          | some r2 => exact ⟨r2, rfl⟩
          | none => exact ⟨cs ++ w, by simp [h3]⟩
        · rw [if_neg h3] at h
          cases h
    · cases h

theorem tryBlank_r_nl {cs : Text} : tryBlank ('\r' :: '\n' :: cs) = chopWs cs := rfl

theorem tryBlank_append_ws {s w : Text}
    {r : Text} (h : tryBlank s = some r) : ∃ r2, tryBlank (s ++ w) = some r2 := by
  rcases tryBlank_some_inv h with ⟨cs, h1, h2⟩ | ⟨cs, h1, h2⟩
  · subst h1
    obtain ⟨r2, hr2⟩ := chopWs_append_ws h2
    exact ⟨r2, by rw [List.cons_append, tryBlank_cons_nl, hr2]⟩
  · subst h1
    obtain ⟨r2, hr2⟩ := chopWs_append_ws h2
    exact ⟨r2, by rw [List.cons_append, List.cons_append, tryBlank_r_nl, hr2]⟩

theorem noBlank_rstrip {l : Text} (h : noBlank l) : noBlank (rstripBy pySpaceB l) := by
  intro s hs
  cases htb : tryBlank s with
  | none => rfl
  | some r =>
    exfalso
    obtain ⟨t, ht⟩ := hs
    have hsw : s ++ (l.reverse.takeWhile pySpaceB).reverse <:+ l := by
      refine ⟨t, ?_⟩
      rw [← List.append_assoc, ht, ← rstripBy_decomp]
    obtain ⟨r2, hr2⟩ := tryBlank_append_ws htb
    have := h _ hsw
    rw [this] at hr2
    cases hr2

theorem noBlank_stripPy {l : Text} (h : noBlank l) : noBlank (stripPy l) :=
  noBlank_rstrip (noBlank_suffix h (List.dropWhile_suffix _))

theorem noTwoHS_stripPy {l : Text} (h : noTwoHS l) : noTwoHS (stripPy l) :=
  List.Chain'.prefix (List.Chain'.suffix h (List.dropWhile_suffix _))
    (rstripBy_pref _ _)

theorem mem_stripPy {l : Text} {x : Char} (h : x ∈ stripPy l) : x ∈ l :=
  (List.dropWhile_suffix _).sublist.subset
    ((rstripBy_pref _ _).sublist.subset h)

theorem head_stripPy (l : Text) : ∀ x ∈ (stripPy l).head?, pySpaceB x = false := by
  intro x hx
  simp only [Option.mem_def] at hx
  have hd : (lstripBy pySpaceB l).head? = some x := by
    conv_lhs => rw [rstripBy_decomp pySpaceB (lstripBy pySpaceB l)]
    rw [List.head?_append]
    have he : rstripBy pySpaceB (lstripBy pySpaceB l) = stripPy l := rfl
    rw [he, hx]
    rfl
  apply head_dropWhile_not pySpaceB l x
  simpa [lstripBy] using hd

theorem last_stripPy (l : Text) : ∀ x ∈ (stripPy l).getLast?, pySpaceB x = false := by
  intro x hx
  rw [stripPy, rstripBy, List.getLast?_reverse] at hx
  exact head_dropWhile_not pySpaceB _ x hx

theorem stripPy_id {l : Text} (h1 : ∀ x ∈ l.head?, pySpaceB x = false)
    (h2 : ∀ x ∈ l.getLast?, pySpaceB x = false) : stripPy l = l := by
  rw [stripPy, lstripBy, dropWhile_id_of_head h1, rstripBy,
    dropWhile_id_of_head (by simpa using h2), List.reverse_reverse]

/-- Bundle of invariants of a non-empty `clean_text` output, used to show a
second pass is the identity. -/
theorem clean_text_out_props (s : Text) :
    ('\xa0' ∉ clean_text s) ∧ (∀ x ∈ clean_text s, bulletB x = false) ∧
    ('\t' ∉ clean_text s) ∧ noTwoHS (clean_text s) ∧ noBlank (clean_text s) ∧
    (∀ x ∈ (clean_text s).head?, pySpaceB x = false) ∧
    (∀ x ∈ (clean_text s).getLast?, pySpaceB x = false) := by
  by_cases hs : s = []
  · subst hs
    refine ⟨by simp [clean_text], by simp [clean_text], by simp [clean_text],
      by simp [clean_text, noTwoHS], ?_, by simp [clean_text], by simp [clean_text]⟩
    show noBlank (clean_text [])
    have : clean_text ([] : Text) = [] := rfl
    rw [this]
    exact noBlank_nil
  · rw [clean_text, if_neg hs]
    set A := repNbsp (repRupee s) with hA
    set B := subBullets A with hB
    set C := subHSpace B with hC
    set D := subBlank C with hD
    have hnbA : '\xa0' ∉ A := not_nbsp_mem_repNbsp
    have hnbB : '\xa0' ∉ B := by
      intro h
      rcases mem_subRunGo h with h1 | h1
      · exact hnbA h1
      · cases h1
    have hbulB : ∀ x ∈ B, bulletB x = false := by
      intro x hx
      rcases mem_subRunGo_out hx with ⟨_, h1⟩ | h1
      · exact h1
      · rw [h1]; rfl
    have hnbC : '\xa0' ∉ C := by
      intro h
      rcases mem_subRunGo h with h1 | h1
      · exact hnbB h1
      · cases h1
    have hbulC : ∀ x ∈ C, bulletB x = false := by
      intro x hx
      rcases mem_subRunGo hx with h1 | h1
      · exact hbulB x h1
      · rw [h1]; rfl
    have htabC : '\t' ∉ C := by
      intro h
      rcases mem_subRunGo_out h with ⟨_, h1⟩ | h1
      · exact absurd h1 (by simp [hSpaceB])
      · cases h1
    have htwoC : noTwoHS C := noTwoHS_subRunGo
    have hnbD : '\xa0' ∉ D := by
      intro h
      rcases mem_subBlankGo h with h1 | h1
      · exact hnbC h1
      · cases h1
    have hbulD : ∀ x ∈ D, bulletB x = false := by
      intro x hx
      rcases mem_subBlankGo hx with h1 | h1
      · exact hbulC x h1
      · rw [h1]; rfl
    have htabD : '\t' ∉ D := by
      intro h
      rcases mem_subBlankGo h with h1 | h1
      · exact htabC h1
      · cases h1
    have htwoD : noTwoHS D := noTwoHS_subBlankGo htwoC
    have hblD : noBlank D := noBlank_subBlankGo (Nat.le_refl _)
    refine ⟨fun h => hnbD (mem_stripPy h), fun x hx => hbulD x (mem_stripPy hx),
      fun h => htabD (mem_stripPy h), noTwoHS_stripPy htwoD, noBlank_stripPy hblD,
      head_stripPy D, last_stripPy D⟩

/-- The function `clean_text` fixes any string satisfying the output invariants. -/
theorem clean_text_fix {y : Text} (hnb : '\xa0' ∉ y)
    (hbul : ∀ x ∈ y, bulletB x = false) (htab : '\t' ∉ y) (htwo : noTwoHS y)
    (hbl : noBlank y) (hhead : ∀ x ∈ y.head?, pySpaceB x = false)
    (hlast : ∀ x ∈ y.getLast?, pySpaceB x = false) : clean_text y = y := by
  by_cases hy : y = []
  · rw [hy]
    rfl
  · rw [clean_text, if_neg hy, repRupee_id, repNbsp_id hnb]
    rw [show subBullets y = y from subRunGo_id hbul]
    rw [subHSpace_id htab htwo]
    rw [show subBlank y = y from subBlankGo_id hbl]
    exact stripPy_id hhead hlast

/-! ## Semantics of the regex engine

`Deriv r prev c r1 g g1` states that pattern `r`, started after the reversed
prefix `prev`, can consume exactly `c` leaving `r1`, transforming the group
environment `g` into `g1`, under the backtracking engine's reading of the
constructors.  The engine is proved sound and complete for it. -/

inductive Deriv : RE → Text → Text → Text → Groups → Groups → Prop where
  | eps {prev rest g} : Deriv .eps prev [] rest g g
  | cls {p : Char → Bool} {c prev rest g} (h : p c = true) :
      Deriv (.cls p) prev [c] rest g g
  | cat {a b prev c1 c2 rest g g1 g2}
      (h1 : Deriv a prev c1 (c2 ++ rest) g g1)
      (h2 : Deriv b (revApp c1 prev) c2 rest g1 g2) :
      Deriv (.cat a b) prev (c1 ++ c2) rest g g2
  | altL {a b prev c rest g g1} (h : Deriv a prev c rest g g1) :
      Deriv (.alt a b) prev c rest g g1
  | altR {a b prev c rest g g1} (h : Deriv b prev c rest g g1) :
      Deriv (.alt a b) prev c rest g g1
  | star {p : Char → Bool} {prev c rest g} (h : ∀ x ∈ c, p x = true) :
      Deriv (.star p) prev c rest g g
  | wordB {prev rest g} (h : isBoundary prev rest = true) :
      Deriv .wordB prev [] rest g g
  | bos {rest g} : Deriv .bos [] [] rest g g
  | eos {prev rest g} (h : rest = [] ∨ rest = ['\n']) :
      Deriv .eos prev [] rest g g
  | group {n a prev c rest g g1} (h : Deriv a prev c rest g g1) :
      Deriv (.group n a) prev c rest g ((n, c) :: g1)

theorem revApp_append (c1 c2 prev : Text) :
    revApp (c1 ++ c2) prev = revApp c2 (revApp c1 prev) := by
  induction c1 generalizing prev with
  | nil => rfl
  | cons x xs ih => exact ih _

theorem revApp_eq_reverse_append (c prev : Text) :
    revApp c prev = c.reverse ++ prev := by
  induction c generalizing prev with
  | nil => rfl
  | cons x xs ih =>
    show revApp xs (x :: prev) = (x :: xs).reverse ++ prev
    rw [ih]
    simp

theorem takeDiff_append (c r1 : Text) : takeDiff (c ++ r1) r1 = c := by
  rw [takeDiff]
  have : (c ++ r1).length - r1.length = c.length := by
    simp
  rw [this]
  exact List.take_left _ _

theorem mem_take_le_takeWhile {p : Char → Bool} :
    ∀ {l : Text} {j : Nat}, j ≤ (l.takeWhile p).length →
      ∀ x ∈ l.take j, p x = true := by
  intro l
  induction l with
  | nil => intro j _ x hx; simp at hx
  | cons c cs ih =>
    intro j hj x hx
    cases j with
    | zero => simp at hx
    | succ j =>
      by_cases hc : p c = true
      · rw [List.takeWhile_cons_of_pos hc, List.length_cons] at hj
        rw [List.take_succ_cons] at hx
        rcases List.mem_cons.mp hx with h1 | h1
        · rw [h1]; exact hc
        · exact ih (Nat.le_of_succ_le_succ hj) x h1
      · rw [List.takeWhile_cons_of_neg (by simpa using hc)] at hj
        simp at hj
  
theorem length_le_takeWhile_append {p : Char → Bool} {c r : Text}
    (h : ∀ x ∈ c, p x = true) : c.length ≤ ((c ++ r).takeWhile p).length := by
  rw [List.takeWhile_append_of_pos h]
  simp

theorem matStar_sound {α : Type} :
    ∀ {i : Nat} {prev rest : Text} {g : Groups}
      {k : Text → Text → Groups → Option α} {res : α},
      matStar i prev rest g k = some res →
      ∃ j, j ≤ i ∧ k (revApp (rest.take j) prev) (rest.drop j) g = some res := by
  intro i
  induction i with
  | zero =>
    intro prev rest g k res h
    exact ⟨0, Nat.le_refl _, h⟩
  | succ i ih =>
    intro prev rest g k res h
    rw [matStar] at h
    cases hk : k (revApp (rest.take (i + 1)) prev) (rest.drop (i + 1)) g with
    | some r2 =>
      rw [hk] at h
      have := Option.some.inj h
      subst this
      exact ⟨i + 1, Nat.le_refl _, hk⟩
    | none =>
      rw [hk] at h
      obtain ⟨j, hj, hkj⟩ := ih h
      exact ⟨j, Nat.le_succ_of_le hj, hkj⟩

theorem matStar_complete {α : Type} :
    ∀ {i : Nat} {j : Nat} {prev rest : Text} {g : Groups}
      {k : Text → Text → Groups → Option α}, j ≤ i →
      matStar i prev rest g k = none →
      k (revApp (rest.take j) prev) (rest.drop j) g = none := by
  intro i
  induction i with
  | zero =>
    intro j prev rest g k hj h
    rw [Nat.le_zero.mp hj]
    exact h
  | succ i ih =>
    intro j prev rest g k hj h
    rw [matStar] at h
    cases hk : k (revApp (rest.take (i + 1)) prev) (rest.drop (i + 1)) g with
    | some r2 =>
      rw [hk] at h
      cases h
    | none =>
      rw [hk] at h
      rcases Nat.lt_or_ge j (i + 1) with h1 | h1
      · exact ih (Nat.lt_succ_iff.mp h1) h
      · have : j = i + 1 := Nat.le_antisymm hj h1
        rw [this]
        exact hk

/-- Soundness of the matcher: a successful run decomposes the input along a
derivation and hands the continuation the corresponding state. -/
theorem mat_sound {α : Type} :
    ∀ (r : RE) {prev rest : Text} {g : Groups}
      {k : Text → Text → Groups → Option α} {res : α},
      mat r prev rest g k = some res →
      ∃ c r1 g1, rest = c ++ r1 ∧ Deriv r prev c r1 g g1 ∧
        k (revApp c prev) r1 g1 = some res := by
  intro r
  induction r with
  | eps =>
    intro prev rest g k res h
    exact ⟨[], rest, g, rfl, Deriv.eps, h⟩
  | cls p =>
    intro prev rest g k res h
    cases rest with
    | nil => simp [mat] at h
    | cons c cs =>
      simp only [mat] at h
      split at h
      · rename_i hp
        exact ⟨[c], cs, g, rfl, Deriv.cls hp, h⟩
      · cases h
  | cat a b iha ihb =>
    intro prev rest g k res h
    simp only [mat] at h
    obtain ⟨c1, r1, g1, he1, hd1, hK⟩ := iha h
    obtain ⟨c2, r2, g2, he2, hd2, hk⟩ := ihb hK
    refine ⟨c1 ++ c2, r2, g2, ?_, ?_, ?_⟩
    · rw [he1, he2, List.append_assoc]
    · exact Deriv.cat (he2 ▸ hd1) hd2
    · rw [revApp_append]
      exact hk
  | alt a b iha ihb =>
    intro prev rest g k res h
    simp only [mat] at h
    cases hma : mat a prev rest g k with
    | some r2 =>
      rw [hma] at h
      have := Option.some.inj h
      subst this
      obtain ⟨c, r1, g1, he, hd, hk⟩ := iha hma
      exact ⟨c, r1, g1, he, Deriv.altL hd, hk⟩
    | none =>
      rw [hma] at h
      obtain ⟨c, r1, g1, he, hd, hk⟩ := ihb h
      exact ⟨c, r1, g1, he, Deriv.altR hd, hk⟩
  | star p =>
    intro prev rest g k res h
    simp only [mat] at h
    obtain ⟨j, hj, hk⟩ := matStar_sound h
    exact ⟨rest.take j, rest.drop j, g, (List.take_append_drop _ _).symm,
      Deriv.star (mem_take_le_takeWhile (by simpa [countWhile] using hj)), hk⟩
  | wordB =>
    intro prev rest g k res h
    simp only [mat] at h
    split at h
    · rename_i hb
      exact ⟨[], rest, g, rfl, Deriv.wordB hb, h⟩
    · cases h
  | bos =>
    intro prev rest g k res h
    simp only [mat] at h
    split at h
    · rename_i hb
      subst hb
      exact ⟨[], rest, g, rfl, Deriv.bos, h⟩
    · cases h
  | eos =>
    intro prev rest g k res h
    simp only [mat] at h
    split at h
    · rename_i hb
      simp only [Bool.or_eq_true, decide_eq_true_eq] at hb
      exact ⟨[], rest, g, rfl, Deriv.eos hb, h⟩
    · cases h
  | group n a iha =>
    intro prev rest g k res h
    simp only [mat] at h
    obtain ⟨c, r1, g1, he, hd, hk⟩ := iha h
    refine ⟨c, r1, (n, c) :: g1, he, Deriv.group hd, ?_⟩
    rw [he, takeDiff_append] at hk
    exact hk

/-- Completeness of the matcher: if the engine fails, no derivation makes the
continuation succeed. -/
theorem mat_complete {α : Type} {r : RE} {prev c r1 : Text} {g g1 : Groups}
    (hd : Deriv r prev c r1 g g1) :
    ∀ {k : Text → Text → Groups → Option α}, mat r prev (c ++ r1) g k = none →
      k (revApp c prev) r1 g1 = none := by
  induction hd with
  | eps =>
    intro k h
    exact h
  | cls hp =>
    intro k h
    simp only [List.cons_append, List.nil_append, mat] at h
    rw [if_pos hp] at h
    exact h
  | @cat a b prev c1 c2 rest g g1 g2 h1 h2 ih1 ih2 =>
    intro k h
    simp only [mat] at h
    rw [List.append_assoc] at h
    have hb := ih1 h
    rw [revApp_append]
    exact ih2 hb
  | altL h1 ih =>
    intro k h
    simp only [mat] at h
    cases hma : mat _ _ _ _ _ with
    | some r2 => rw [hma] at h; cases h
    | none => exact ih hma
  | altR h1 ih =>
    intro k h
    simp only [mat] at h
    cases hma : mat _ _ _ _ _ with
    | some r2 => rw [hma] at h; cases h
    | none =>
      rw [hma] at h
      exact ih h
  | @star p prev cc rest g hp =>
    intro k h
    simp only [mat] at h
    have hle : cc.length ≤ countWhile p (cc ++ rest) := by
      rw [countWhile]
      exact length_le_takeWhile_append hp
    have := matStar_complete hle h
    rw [List.take_left, List.drop_left] at this
    exact this
  | wordB hb =>
    intro k h
    simp only [mat, List.nil_append] at h
    rw [if_pos hb] at h
    exact h
  | bos =>
    intro k h
    simp only [mat, List.nil_append, if_true] at h
    exact h
  | eos hb =>
    intro k h
    simp only [mat, List.nil_append] at h
    rw [if_pos (by simp [hb])] at h
    exact h
  | @group n a prev cc rest g g1 h1 ih =>
    intro k h
    simp only [mat] at h
    have := ih h
    rw [takeDiff_append] at this
    exact this

theorem revApp_nil (l : Text) : revApp l [] = l.reverse := by
  rw [revApp_eq_reverse_append, List.append_nil]

/-- Soundness of `researchAux`: a hit decomposes the text at the leftmost
matching position. -/
theorem researchAux_some {r : RE} :
    ∀ {rest prev : Text} {g : Groups} {pfin rs : Text},
      researchAux r prev rest = some (g, pfin, rs) →
      ∃ skip c, rest = skip ++ c ++ rs ∧
        Deriv (RE.group 0 r) (revApp skip prev) c rs [] g ∧
        pfin = revApp c (revApp skip prev) ∧
        (∀ skip2 c2 rs2 g2, skip2.length < skip.length →
          rest = skip2 ++ c2 ++ rs2 →
          ¬ Deriv (RE.group 0 r) (revApp skip2 prev) c2 rs2 [] g2) := by
  intro rest
  induction rest with
  | nil =>
    intro prev g pfin rs h
    rw [researchAux] at h
    cases hm : mat (RE.group 0 r) prev [] []
        (fun p rs g => some (g, p, rs)) with
    | none => rw [hm] at h; cases h
    | some out =>
      rw [hm] at h
      have hout := Option.some.inj h
      subst hout
      obtain ⟨c, r1, g1, he, hd, hk⟩ := mat_sound _ hm
      have h3 := Option.some.inj hk
      have hg : g = g1 := (congrArg (fun q => q.1) h3).symm
      have hrs : rs = r1 := (congrArg (fun q => q.2.2) h3).symm
      refine ⟨[], c, ?_, ?_, ?_, ?_⟩
      · rw [List.nil_append, hrs]
        exact he
      · rw [hg, hrs]
        exact hd
      · exact (congrArg (fun q => q.2.1) h3).symm
      · intro skip2 c2 rs2 g2 hlt _
        simp at hlt
  | cons x xs ih =>
    intro prev g pfin rs h
    rw [researchAux] at h
    cases hm : mat (RE.group 0 r) prev (x :: xs) []
        (fun p rs g => some (g, p, rs)) with
    | some out =>
      rw [hm] at h
      have hout := Option.some.inj h
      subst hout
      obtain ⟨c, r1, g1, he, hd, hk⟩ := mat_sound _ hm
      have h3 := Option.some.inj hk
      have hg : g = g1 := (congrArg (fun q => q.1) h3).symm
      have hrs : rs = r1 := (congrArg (fun q => q.2.2) h3).symm
      have hpf : pfin = revApp c prev := (congrArg (fun q => q.2.1) h3).symm
      refine ⟨[], c, ?_, ?_, ?_, ?_⟩
      · rw [List.nil_append, hrs]
        exact he
      · rw [hg, hrs]
        exact hd
      · exact hpf
      · intro skip2 c2 rs2 g2 hlt _
        simp at hlt
    | none =>
      rw [hm] at h
      obtain ⟨skip, c, he, hd, hpf, hleft⟩ := ih h
      refine ⟨x :: skip, c, ?_, hd, hpf, ?_⟩
      · rw [he]
        rfl
      · intro skip2 c2 rs2 g2 hlt he2
        cases skip2 with
        | nil =>
          intro hd2
          rw [List.nil_append] at he2
          have hmc := mat_complete hd2 (k := fun p rs g => some (g, p, rs))
            (by rw [← he2]; exact hm)
          cases hmc
        | cons y skip2t =>
          have hy : y = x := (List.cons.inj he2).1.symm
          subst hy
          have hxs : xs = skip2t ++ c2 ++ rs2 := (List.cons.inj he2).2
          simp only [List.length_cons, Nat.succ_lt_succ_iff] at hlt
          exact hleft skip2t c2 rs2 g2 hlt hxs

/-- Completeness of `researchAux`: a miss means no position matches. -/
theorem researchAux_none {r : RE} :
    ∀ {rest prev : Text}, researchAux r prev rest = none →
      ∀ skip c rs g, rest = skip ++ c ++ rs →
        ¬ Deriv (RE.group 0 r) (revApp skip prev) c rs [] g := by
  intro rest
  induction rest with
  | nil =>
    intro prev h skip c rs g he hd
    rw [researchAux] at h
    cases hm : mat (RE.group 0 r) prev [] []
        (fun p rs g => some (g, p, rs)) with
    | some out => rw [hm] at h; cases h
    | none =>
      have hskip : skip = [] := by
        cases skip with
        | nil => rfl
        | cons a b => simp at he
      subst hskip
      rw [List.nil_append] at he
      have hmc := mat_complete hd (k := fun p rs g => some (g, p, rs))
        (by rw [← he]; exact hm)
      cases hmc
  | cons x xs ih =>
    intro prev h skip c rs g he hd
    rw [researchAux] at h
    cases hm : mat (RE.group 0 r) prev (x :: xs) []
        (fun p rs g => some (g, p, rs)) with
    | some out => rw [hm] at h; cases h
    | none =>
      rw [hm] at h
      cases skip with
      | nil =>
        rw [List.nil_append] at he
        have hmc := mat_complete hd (k := fun p rs g => some (g, p, rs))
          (by rw [← he]; exact hm)
        cases hmc
      | cons y skipt =>
        have hy : y = x := (List.cons.inj he).1.symm
        subst hy
        exact ih h skipt c rs g (List.cons.inj he).2 hd

/-- A semantic match of `r` (wrapped in group 0) somewhere in `t`. -/
def HasMatch (r : RE) (t : Text) : Prop :=
  ∃ skip c rs g, t = skip ++ c ++ rs ∧ Deriv (RE.group 0 r) skip.reverse c rs [] g

theorem research_isSome_iff {r : RE} {t : Text} :
    (research r t).isSome = true ↔ HasMatch r t := by
  constructor
  · intro h
    rw [research] at h
    cases hra : researchAux r [] t with
    | none => rw [hra] at h; cases h
    | some out =>
      obtain ⟨g, pfin, rs⟩ := out
      obtain ⟨skip, c, he, hd, _, _⟩ := researchAux_some hra
      rw [revApp_nil] at hd
      exact ⟨skip, c, rs, g, he, hd⟩
  · rintro ⟨skip, c, rs, g, he, hd⟩
    rw [research]
    cases hra : researchAux r [] t with
    | some out => simp
    | none =>
      exfalso
      rw [← revApp_nil] at hd
      exact researchAux_none hra skip c rs g he hd

/-- Unpacking a successful `research`: groups come from a derivation at the
leftmost matching position. -/
theorem research_some_deriv {r : RE} {t : Text} {g : Groups}
    (h : research r t = some g) :
    ∃ skip c rs, t = skip ++ c ++ rs ∧
      Deriv (RE.group 0 r) skip.reverse c rs [] g ∧
      (∀ skip2 c2 rs2 g2, skip2.length < skip.length →
        t = skip2 ++ c2 ++ rs2 →
        ¬ Deriv (RE.group 0 r) skip2.reverse c2 rs2 [] g2) := by
  rw [research] at h
  cases hra : researchAux r [] t with
  | none => rw [hra] at h; cases h
  | some out =>
    rw [hra] at h
    obtain ⟨g1, pfin, rs⟩ := out
    have hg : g1 = g := Option.some.inj h
    subst hg
    obtain ⟨skip, c, he, hd, _, hleft⟩ := researchAux_some hra
    rw [revApp_nil] at hd
    refine ⟨skip, c, rs, he, hd, ?_⟩
    intro skip2 c2 rs2 g2 hlt he2 hd2
    rw [← revApp_nil] at hd2
    exact hleft skip2 c2 rs2 g2 hlt he2 hd2

theorem lowerChar_idem (c : Char) : lowerChar (lowerChar c) = lowerChar c := by
  by_cases h : 65 ≤ c.toNat ∧ c.toNat ≤ 90
  · obtain ⟨h1, h2⟩ := h
    have hc := (Char.ofNat_toNat c).symm
    rw [hc]
    generalize c.toNat = n at h1 h2
    interval_cases n <;> decide
  · have hfix : lowerChar c = c := by
      simp only [lowerChar, Char.toLower]
      rw [if_neg (by omega)]
    rw [hfix]
    exact hfix

theorem lowerStr_idem (l : Text) : lowerStr (lowerStr l) = lowerStr l := by
  simp only [lowerStr, List.map_map]
  exact List.map_congr_left (fun c _ => lowerChar_idem c)

/-! ### Inversion lemmas for the concrete patterns -/

theorem deriv_repN {p : Char → Bool} :
    ∀ {n : Nat} {prev c rest : Text} {g g1 : Groups},
      Deriv (repN p n) prev c rest g g1 →
      g1 = g ∧ c.length = n ∧ ∀ x ∈ c, p x = true := by
  intro n
  induction n with
  | zero =>
    intro prev c rest g g1 h
    cases h
    exact ⟨rfl, rfl, by simp⟩
  | succ n ih =>
    intro prev c rest g g1 h
    simp only [repN] at h
    cases h with
    | cat h1 h2 =>
      cases h1 with
      | cls hp =>
        obtain ⟨hg, hlen, hall⟩ := ih h2
        refine ⟨hg, by simp [hlen], ?_⟩
        intro x hx
        rcases List.mem_cons.mp hx with h3 | h3
        · rw [h3]; exact hp
        · exact hall x h3

theorem deriv_star_inv {p : Char → Bool} {prev c rest : Text} {g g1 : Groups}
    (h : Deriv (.star p) prev c rest g g1) :
    g1 = g ∧ ∀ x ∈ c, p x = true := by
  cases h with
  | star hp => exact ⟨rfl, hp⟩

theorem deriv_atLeast {p : Char → Bool} {n : Nat} {prev c rest : Text}
    {g g1 : Groups} (h : Deriv (atLeast p n) prev c rest g g1) :
    g1 = g ∧ n ≤ c.length ∧ ∀ x ∈ c, p x = true := by
  rw [atLeast] at h
  cases h with
  | cat h1 h2 =>
    obtain ⟨hg1, hlen, hall1⟩ := deriv_repN h1
    obtain ⟨hg2, hall2⟩ := deriv_star_inv h2
    refine ⟨by rw [hg2, hg1], by simp [hlen], ?_⟩
    intro x hx
    rcases List.mem_append.mp hx with h3 | h3
    · exact hall1 x h3
    · exact hall2 x h3

theorem deriv_ichrList : ∀ {w : Text} {prev c rest : Text} {g g1 : Groups},
    Deriv (cats (w.map ichr)) prev c rest g g1 →
    g1 = g ∧ lowerStr c = lowerStr w := by
  intro w
  induction w with
  | nil =>
    intro prev c rest g g1 h
    simp only [List.map_nil, cats] at h
    cases h
    exact ⟨rfl, rfl⟩
  | cons a t ih =>
    intro prev c rest g g1 h
    cases t with
    | nil =>
      simp only [List.map_cons, List.map_nil, cats, ichr] at h
      cases h with
      | cls hp =>
        refine ⟨rfl, ?_⟩
        simp only [lowerStr, List.map_cons, List.map_nil, List.cons.injEq, and_true]
        exact of_decide_eq_true hp
    | cons b t2 =>
      simp only [List.map_cons, cats, ichr] at h
      cases h with
      | cat h1 h2 =>
        cases h1 with
        | cls hp =>
          obtain ⟨hg, hl⟩ := ih h2
          refine ⟨hg, ?_⟩
          simp only [lowerStr, List.map_cons, List.cons_append, List.nil_append,
            List.cons.injEq]
          constructor
          · exact of_decide_eq_true hp
          · simpa [lowerStr] using hl

theorem deriv_ilit {w : String} {prev c rest : Text} {g g1 : Groups}
    (h : Deriv (ilit w) prev c rest g g1) :
    g1 = g ∧ lowerStr c = lowerStr (txt w) :=
  deriv_ichrList h

/-- Inverting a `UTR_RE` match: group 1 holds a numeric token of 8 or more
digits. -/
theorem deriv_utr_groups {prev c rs : Text} {g : Groups}
    (hd : Deriv (RE.group 0 UTR_RE) prev c rs [] g) :
    ∃ w, grp 1 g = some w ∧ 8 ≤ w.length ∧ ∀ x ∈ w, digitB x = true := by
  cases hd with
  | group h =>
    rw [show UTR_RE = RE.cat .wordB (RE.cat (ilit "UTR")
        (RE.cat (.star colonSpaceB) (RE.group 1 (atLeast digitB 8)))) from rfl] at h
    cases h with
    | cat h1 h2 =>
      cases h1 with
      | wordB hb =>
        cases h2 with
        | cat h3 h4 =>
          obtain ⟨hg3, _⟩ := deriv_ilit h3
          subst hg3
          cases h4 with
          | cat h5 h6 =>
            obtain ⟨hg5, _⟩ := deriv_star_inv h5
            subst hg5
            cases h6 with
            | group h7 =>
              obtain ⟨hg7, hlen, hdig⟩ := deriv_atLeast h7
              subst hg7
              exact ⟨_, by simp [grp, List.find?], hlen, hdig⟩

/-- Inverting a `STATUS_RE` match: group 1 lowercases to one of the six
status words. -/
theorem deriv_status_groups {prev c rs : Text} {g : Groups}
    (hd : Deriv (RE.group 0 STATUS_RE) prev c rs [] g) :
    ∃ w, grp 1 g = some w ∧
      (lowerStr w = txt "completed" ∨ lowerStr w = txt "success" ∨
       lowerStr w = txt "successful" ∨ lowerStr w = txt "failed" ∨
       lowerStr w = txt "pending" ∨ lowerStr w = txt "declined") := by
  cases hd with
  | group h =>
    rw [show STATUS_RE = RE.cat .wordB (RE.cat (RE.group 1
        (.alt (ilit "Completed") (.alt (ilit "Success") (.alt (ilit "Successful")
          (.alt (ilit "Failed") (.alt (ilit "Pending") (ilit "Declined")))))))
        .wordB) from rfl] at h
    cases h with
    | cat h1 h2 =>
      cases h1 with
      | wordB hb =>
        cases h2 with
        | cat h3 h4 =>
          cases h3 with
          | group h5 =>
            cases h4 with
            | wordB hb2 =>
              rename_i c1 g1tail
              refine ⟨c1, by simp [grp, List.find?], ?_⟩
              cases h5 with
              | altL ha =>
                obtain ⟨_, hl⟩ := deriv_ilit ha
                exact Or.inl (by rw [hl]; decide)
              | altR ha =>
                cases ha with
                | altL hb3 =>
                  obtain ⟨_, hl⟩ := deriv_ilit hb3
                  exact Or.inr (Or.inl (by rw [hl]; decide))
                | altR hb3 =>
                  cases hb3 with
                  | altL hc3 =>
                    obtain ⟨_, hl⟩ := deriv_ilit hc3
                    exact Or.inr (Or.inr (Or.inl (by rw [hl]; decide)))
                  | altR hc3 =>
                    cases hc3 with
                    | altL hd3 =>
                      obtain ⟨_, hl⟩ := deriv_ilit hd3
                      exact Or.inr (Or.inr (Or.inr (Or.inl (by rw [hl]; decide))))
                    | altR hd3 =>
                      cases hd3 with
                      | altL he3 =>
                        obtain ⟨_, hl⟩ := deriv_ilit he3
                        exact Or.inr (Or.inr (Or.inr (Or.inr (Or.inl
                          (by rw [hl]; decide)))))
                      | altR he3 =>
                        obtain ⟨_, hl⟩ := deriv_ilit he3
                        exact Or.inr (Or.inr (Or.inr (Or.inr (Or.inr
                          (by rw [hl]; decide)))))

theorem digit_not_pySpace {x : Char} (h : digitB x = true) : pySpaceB x = false := by
  simp only [digitB, Bool.and_eq_true, decide_eq_true_eq] at h
  obtain ⟨h1, h2⟩ := h
  by_contra h3
  rw [Bool.not_eq_false] at h3
  simp only [pySpaceB, Bool.or_eq_true, decide_eq_true_eq, Bool.and_eq_true] at h3
  casesm* _ ∨ _
  all_goals
    first
    | (subst_vars; exact absurd h1 (by decide))
    | (subst_vars; exact absurd h2 (by decide))
    | (rename_i hr
       obtain ⟨hr1, hr2⟩ := hr
       exact absurd (le_trans hr1 h2) (by decide))

theorem stripPy_fix_of_not_space {w : Text} (h : ∀ x ∈ w, pySpaceB x = false) :
    stripPy w = w :=
  stripPy_id (fun x hx => h x (List.mem_of_mem_head? hx))
    (fun x hx => h x (List.mem_of_getLast?_eq_some hx))

/-! ### Field equations of `extract` -/

theorem extract_utr (s : Text) :
    (extract s).utr = match research UTR_RE (clean_text s) with
      | some g => some (stripPy (grpD 1 g))
      | none => none := rfl

theorem extract_amount (s : Text) :
    (extract s).amount_inr = match research AMOUNT_RE (clean_text s) with
      | some g => safe_float (grpD 1 g)
      | none => none := rfl

theorem extract_upi (s : Text) :
    (extract s).upi_txn_id = match (match research GUPI_ID_RE (clean_text s) with
        | some g => some g
        | none => research PHONPE_TXN_RE (clean_text s)) with
      | some g => some (stripPy (grpD 1 g))
      | none => none := rfl

theorem extract_vpa (s : Text) :
    (extract s).payee_vpa = match vpaNearScan (linesOf (clean_text s)) with
      | some v => some v
      | none => match research VPA_RE (clean_text s) with
        | some g => some (lowerStr (grpD 1 g))
        | none => none := rfl

theorem extract_status (s : Text) :
    (extract s).txn_status = match research STATUS_RE (clean_text s) with
      | some g =>
        if startsWith (txt "success") (lowerStr (grpD 1 g)) = true
        then some (txt "Successful")
        else some (titleWord (lowerStr (grpD 1 g)))
      | none => none := rfl

theorem extract_time (s : Text) :
    (extract s).txn_time = match research GPAY_DT_RE (clean_text s) with
      | some g => parse_dt (grpD 1 g) (grpD 2 g)
      | none => match research PHONEPE_DT_RE (clean_text s) with
        | some g => parse_phonepe_dt g
        | none => none := rfl

theorem extract_channel (s : Text) :
    (extract s).channel = guess_channel (clean_text s) := rfl

theorem extract_currency (s : Text) : (extract s).currency = txt "INR" := rfl

theorem vpaNearScan_lower : ∀ {ln : List Text} {v : Text},
    vpaNearScan ln = some v → ∃ w, v = lowerStr w := by
  intro ln
  induction ln with
  | nil =>
    intro v h
    simp [vpaNearScan] at h
  | cons s rest ih =>
    intro v h
    rw [vpaNearScan] at h
    split at h
    · split at h
      · rename_i g hg
        exact ⟨_, (Option.some.inj h).symm⟩
      · exact ih h
    · exact ih h

/-! ## The claims -/

/-- C1: for every input string, `extract` terminates and returns a
structured record (and never raises): the embedded extractor is a total
function, always yielding a record with currency INR. -/
theorem extract_total (s : Text) :
    ∃ r : ExtractedRecord, extract s = r ∧ r.currency = txt "INR" :=
  ⟨extract s, rfl, rfl⟩

/-- C2 counterexample: on input `"UTR: 12345678901234567"` the extractor
returns a 17-digit `utr`, so the claimed 8-16-digit bound on non-null `utr`
values is false (the source regex `UTR_RE` has no upper bound). -/
theorem utr_16_counterexample :
    (extract (txt "UTR: 12345678901234567")).utr = some (txt "12345678901234567") ∧
    ¬(txt "12345678901234567").length ≤ 16 := by
  constructor
  · decide
  · decide

/-- C2 (amended): `utr` is non-null exactly when `UTR_RE` (label "UTR"
followed by a numeric token of 8 *or more* digits) matches the normalized
text; every non-null `utr` value is a numeric string of at least 8 digits;
and `extract("UTR: 123456789012")` yields utr `"123456789012"`. -/
theorem utr_spec (s : Text) :
    ((extract s).utr ≠ none ↔ HasMatch UTR_RE (clean_text s)) ∧
    (∀ v, (extract s).utr = some v → 8 ≤ v.length ∧ ∀ x ∈ v, digitB x = true) ∧
    (extract (txt "UTR: 123456789012")).utr = some (txt "123456789012") := by
  refine ⟨?_, ?_, by decide⟩
  · rw [extract_utr]
    cases hr : research UTR_RE (clean_text s) with
    | none =>
      simp only [ne_eq, not_true_eq_false, false_iff]
      intro hm
      have := research_isSome_iff.mpr hm
      rw [hr] at this
      cases this
    | some g =>
      simp only [ne_eq, reduceCtorEq, not_false_eq_true, true_iff]
      exact research_isSome_iff.mp (by rw [hr]; rfl)
  · intro v hv
    rw [extract_utr] at hv
    cases hr : research UTR_RE (clean_text s) with
    | none => rw [hr] at hv; cases hv
    | some g =>
      rw [hr] at hv
      have hveq := Option.some.inj hv
      obtain ⟨skip, c, rs, _, hd, _⟩ := research_some_deriv hr
      obtain ⟨w, hw, hlen, hdig⟩ := deriv_utr_groups hd
      have hgd : grpD 1 g = w := by rw [grpD, hw]; rfl
      have hsw : stripPy w = w :=
        stripPy_fix_of_not_space (fun x hx => digit_not_pySpace (hdig x hx))
      rw [← hveq, hgd, hsw]
      exact ⟨hlen, hdig⟩

/-- C3 counterexample: the word "Completed" is matched by `STATUS_RE` and
normalized by title-casing to `"Completed"`, which is outside the claimed
enumeration {Successful, Failed, Pending, Declined}. -/
theorem status_enum_counterexample :
    (extract (txt "Payment Completed")).txn_status = some (txt "Completed") ∧
    txt "Completed" ∉ [txt "Successful", txt "Failed", txt "Pending",
      txt "Declined"] := by
  constructor
  · decide
  · decide

/-- C3 (amended): the status field is null or one of {Completed, Successful,
Failed, Pending, Declined}; both "Success" and "Successful" map to
"Successful". -/
theorem status_spec (s : Text) :
    ((extract s).txn_status = none ∨
      (extract s).txn_status ∈ [some (txt "Completed"), some (txt "Successful"),
        some (txt "Failed"), some (txt "Pending"), some (txt "Declined")]) ∧
    (extract (txt "Success")).txn_status = some (txt "Successful") ∧
    (extract (txt "Successful")).txn_status = some (txt "Successful") := by
  refine ⟨?_, by decide, by decide⟩
  rw [extract_status]
  cases hr : research STATUS_RE (clean_text s) with
  | none => exact Or.inl rfl
  | some g =>
    right
    obtain ⟨skip, c, rs, _, hd, _⟩ := research_some_deriv hr
    obtain ⟨w, hw, hcases⟩ := deriv_status_groups hd
    have hgd : grpD 1 g = w := by rw [grpD, hw]; rfl
    simp only [hgd]
    rcases hcases with h | h | h | h | h | h <;> rw [h] <;> decide

/-- C2 witness: the amended bound is realized at the spec's own example. -/
theorem utr_spec_witness :
    8 ≤ (txt "123456789012").length ∧ ∀ x ∈ txt "123456789012", digitB x = true :=
  (utr_spec (txt "UTR: 123456789012")).2.1 (txt "123456789012") (by decide)

/-- C4: the date-time resolver tries the GooglePay pattern first and uses
only it whenever it matches (even if every format parse fails, leaving the
timestamp null); the PhonePe pattern is consulted only when the GooglePay
pattern does not match at all.  The concrete conjunct shows a text whose
GooglePay-shaped date fails every format while a parseable PhonePe date is
present, and the timestamp is still null. -/
theorem datetime_priority (s : Text) :
    (∀ g, research GPAY_DT_RE (clean_text s) = some g →
      (extract s).txn_time = parse_dt (grpD 1 g) (grpD 2 g)) ∧
    (research GPAY_DT_RE (clean_text s) = none →
      (extract s).txn_time = match research PHONEPE_DT_RE (clean_text s) with
        | some g => parse_phonepe_dt g
        | none => none) ∧
    ((extract (txt "24 Abc 2025, 11:28 am then 01:56 pm on 23 Aug 2025")).txn_time
        = none ∧
      (research PHONEPE_DT_RE
        (clean_text (txt "24 Abc 2025, 11:28 am then 01:56 pm on 23 Aug 2025"))).isSome
        = true) := by
  refine ⟨?_, ?_, by decide, by decide⟩
  · intro g hg
    rw [extract_time, hg]
  · intro hg
    rw [extract_time, hg]

/-- C4 witness: with no GooglePay-shaped date, the PhonePe pattern resolves
the timestamp. -/
theorem datetime_priority_witness :
    (extract (txt "01:56 pm on 23 Aug 2025")).txn_time =
      some ⟨2025, 8, 23, 13, 56⟩ := by
  have h := (datetime_priority (txt "01:56 pm on 23 Aug 2025")).2.1 (by decide)
  rw [h]
  decide

/-- C5: the transaction-id recognizer tries the GooglePay shape
(`GUPI_ID_RE`) first and keeps its value whenever it matches; the PhonePe
shape (`PHONPE_TXN_RE`) is consulted only when the first does not match; on
text containing both a "UPI transaction ID 987654321" and a
"Transaction ID ABCXYZ1234" the numeric GooglePay-style value wins. -/
theorem upi_txn_id_priority (s : Text) :
    (∀ g, research GUPI_ID_RE (clean_text s) = some g →
      (extract s).upi_txn_id = some (stripPy (grpD 1 g))) ∧
    (research GUPI_ID_RE (clean_text s) = none →
      (extract s).upi_txn_id = (research PHONPE_TXN_RE (clean_text s)).map
        (fun g => stripPy (grpD 1 g))) ∧
    (extract (txt "UPI transaction ID 987654321 and Transaction ID ABCXYZ1234")).upi_txn_id
      = some (txt "987654321") := by
  refine ⟨?_, ?_, by decide⟩
  · intro g hg
    rw [extract_upi, hg]
  · intro hg
    rw [extract_upi, hg]
    cases research PHONPE_TXN_RE (clean_text s) <;> rfl

/-- C5 witness: with no GooglePay-style id present, the PhonePe shape
supplies the value. -/
theorem upi_txn_id_priority_witness :
    (extract (txt "Transaction ID ABCXYZ1234")).upi_txn_id =
      some (txt "ABCXYZ1234") := by
  have h := (upi_txn_id_priority (txt "Transaction ID ABCXYZ1234")).2.1 (by decide)
  rw [h]
  decide

/-- C7: the VPA recognizer first scans marker lines ("Sent to"/"To"/
"Paid to" plus the next two lines) via `vpaNearScan`, falls back to the
first VPA-shaped token in the whole document only when that scan fails,
always returns a lowercased value, and on
`"random text merchant@upi end"` finds `merchant@upi` via the fallback. -/
theorem payee_vpa_spec (s : Text) :
    (∀ v, vpaNearScan (linesOf (clean_text s)) = some v →
      (extract s).payee_vpa = some v) ∧
    (vpaNearScan (linesOf (clean_text s)) = none →
      (extract s).payee_vpa = (research VPA_RE (clean_text s)).map
        (fun g => lowerStr (grpD 1 g))) ∧
    (∀ v, (extract s).payee_vpa = some v → lowerStr v = v) ∧
    (extract (txt "random text merchant@upi end")).payee_vpa =
      some (txt "merchant@upi") := by
  refine ⟨?_, ?_, ?_, by decide⟩
  · intro v hv
    rw [extract_vpa, hv]
  · intro hv
    rw [extract_vpa, hv]
    cases research VPA_RE (clean_text s) <;> rfl
  · intro v hv
    rw [extract_vpa] at hv
    cases hn : vpaNearScan (linesOf (clean_text s)) with
    | some v0 =>
      rw [hn] at hv
      obtain ⟨w, hw⟩ := vpaNearScan_lower hn
      have : v = v0 := (Option.some.inj hv).symm
      rw [this, hw, lowerStr_idem]
    | none =>
      rw [hn] at hv
      cases hr : research VPA_RE (clean_text s) with
      | none => rw [hr] at hv; cases hv
      | some g =>
        rw [hr] at hv
        have : v = lowerStr (grpD 1 g) := (Option.some.inj hv).symm
        rw [this, lowerStr_idem]

/-- C7 witness: a marker-adjacent VPA is preferred. -/
theorem payee_vpa_spec_witness :
    (extract (txt "Sent to\nmerchant@okhdfc\nfallback@upi")).payee_vpa =
      some (txt "merchant@okhdfc") := by
  have h := (payee_vpa_spec (txt "Sent to\nmerchant@okhdfc\nfallback@upi")).1
    (txt "merchant@okhdfc") (by decide)
  exact h

/-- C6: normalization is idempotent, a pure total function, and maps the
empty input to the empty output. -/
theorem clean_text_idempotent (s : Text) :
    clean_text (clean_text s) = clean_text s ∧ clean_text ([] : Text) = [] := by
  obtain ⟨h1, h2, h3, h4, h5, h6, h7⟩ := clean_text_out_props s
  exact ⟨clean_text_fix h1 h2 h3 h4 h5 h6 h7, rfl⟩

/-- C8: channel classification checks lowercase substring markers in
priority order (phonepe, then google pay/gpay/g pay, then paytm, else the
generic default), the record's channel is the classifier's output on the
normalized text, and the classifier's strings render the spec's enumeration
via `channelOf`. -/
theorem channel_spec (s : Text) :
    (∀ t : Text, containsSub (txt "phonepe") (lowerStr t) = true →
      guess_channel t = txt "PhonePe") ∧
    (∀ t : Text, containsSub (txt "phonepe") (lowerStr t) = false →
      (containsSub (txt "google pay") (lowerStr t) = true ∨
       containsSub (txt "gpay") (lowerStr t) = true ∨
       containsSub (txt "g pay") (lowerStr t) = true) →
      guess_channel t = txt "GPay") ∧
    (∀ t : Text, containsSub (txt "phonepe") (lowerStr t) = false →
      containsSub (txt "google pay") (lowerStr t) = false →
      containsSub (txt "gpay") (lowerStr t) = false →
      containsSub (txt "g pay") (lowerStr t) = false →
      containsSub (txt "paytm") (lowerStr t) = true →
      guess_channel t = txt "Paytm") ∧
    (∀ t : Text, containsSub (txt "phonepe") (lowerStr t) = false →
      containsSub (txt "google pay") (lowerStr t) = false →
      containsSub (txt "gpay") (lowerStr t) = false →
      containsSub (txt "g pay") (lowerStr t) = false →
      containsSub (txt "paytm") (lowerStr t) = false →
      guess_channel t = txt "UPI") ∧
    (extract s).channel = guess_channel (clean_text s) ∧
    channelOf (txt "PhonePe") = some TransactionChannel.PhonePe ∧
    channelOf (txt "GPay") = some TransactionChannel.GooglePay ∧
    channelOf (txt "Paytm") = some TransactionChannel.Paytm ∧
    channelOf (txt "UPI") = some TransactionChannel.GenericUPI := by
  refine ⟨?_, ?_, ?_, ?_, extract_channel s, by decide, by decide, by decide,
    by decide⟩
  · intro t h
    rw [guess_channel]
    simp only [h, Bool.true_or, if_true]
  · intro t h1 h2
    rw [guess_channel]
    simp only [h1, Bool.false_or, Bool.false_and, if_false]
    rcases h2 with h | h | h <;> simp [h]
  · intro t h1 h2 h3 h4 h5
    rw [guess_channel]
    simp [h1, h2, h3, h4, h5]
  · intro t h1 h2 h3 h4 h5
    rw [guess_channel]
    simp [h1, h2, h3, h4, h5]

/-- C8 witness: text holding both a PhonePe and a GooglePay marker
classifies as PhonePe; markerless text gets the generic default. -/
theorem channel_spec_witness :
    guess_channel (txt "via PhonePe or GPay") = txt "PhonePe" ∧
    guess_channel (txt "no app marker here") = txt "UPI" := by
  constructor
  · exact (channel_spec []).1 (txt "via PhonePe or GPay") (by decide)
  · exact (channel_spec []).2.2.2.1 (txt "no app marker here") (by decide)
      (by decide) (by decide) (by decide) (by decide)

/-- C9: the amount is the comma-stripped decimal parse of group 1 of the
first (leftmost) `AMOUNT_RE` match of the normalized text, null when the
pattern does not match; `extract("Paid ₹1,234.50 to merchant")` yields
1234.50. -/
theorem amount_spec (s : Text) :
    (∀ g, research AMOUNT_RE (clean_text s) = some g →
      (extract s).amount_inr = safe_float (grpD 1 g)) ∧
    (research AMOUNT_RE (clean_text s) = none → (extract s).amount_inr = none) ∧
    (∀ g, research AMOUNT_RE (clean_text s) = some g →
      ∃ skip c rs, clean_text s = skip ++ c ++ rs ∧
        Deriv (RE.group 0 AMOUNT_RE) skip.reverse c rs [] g ∧
        ∀ skip2 c2 rs2 g2, skip2.length < skip.length →
          clean_text s = skip2 ++ c2 ++ rs2 →
          ¬ Deriv (RE.group 0 AMOUNT_RE) skip2.reverse c2 rs2 [] g2) ∧
    (extract (txt "Paid ₹1,234.50 to merchant")).amount_inr =
      some (normPF 123450 2) := by
  refine ⟨?_, ?_, ?_, by decide⟩
  · intro g hg
    rw [extract_amount, hg]
  · intro hg
    rw [extract_amount, hg]
  · intro g hg
    exact research_some_deriv hg

/-- C9 witness: the characterization applied at the spec's example. -/
theorem amount_spec_witness :
    (extract (txt "Paid ₹1,234.50 to merchant")).amount_inr =
      safe_float (txt "1,234.50") := by
  cases hg : research AMOUNT_RE (clean_text (txt "Paid ₹1,234.50 to merchant")) with
  | none => exact absurd hg (by decide)
  | some g =>
    have h := (amount_spec (txt "Paid ₹1,234.50 to merchant")).1 g hg
    rw [h]
    have hgv : research AMOUNT_RE (clean_text (txt "Paid ₹1,234.50 to merchant")) =
        some [(0, txt "₹1,234.50"), (1, txt "1,234.50")] := by decide
    rw [hgv] at hg
    have := Option.some.inj hg
    rw [← this]
    decide

theorem pvGo_ne {p : Text} (hp : p ≠ []) :
    ∀ {f : Nat} {prev rest : Text}, pvGo (some p) f prev rest ≠ p := by
  intro f
  induction f with
  | zero =>
    intro prev rest h
    exact hp h.symm
  | succ f ih =>
    intro prev rest
    rw [pvGo]
    cases hra : researchAux MODEL_VPA_RE prev rest with
    | none =>
      intro h
      exact hp h.symm
    | some out =>
      obtain ⟨g, pr, r⟩ := out
      dsimp only
      split
      · exact ih
      · rename_i hguard
        intro hv
        apply hguard
        simp only [Bool.and_eq_true, decide_eq_true_eq]
        refine ⟨by simp [truthy, hp], ?_⟩
        show lowerStr (grpD 0 g) = lowerStr ((some p).getD [])
        have hgetd : (some p).getD ([] : Text) = p := rfl
        rw [hgetd, ← hv, lowerStr_idem]

/-- Model of `re.finditer` for a pattern: successive non-overlapping
matches, each search resuming after the previous match.  Fueled exactly
like `pvGo`; every `_VPA_RE` match is non-empty, so the fuel used by
`payer_vpa_guess` suffices. -/
def finditerGo (r : RE) : Nat → Text → Text → List Groups
  | 0, _, _ => []
  | f + 1, prev, rest =>
    match researchAux r prev rest with
    | none => []
    | some (g, p, rr) => g :: finditerGo r f p rr

/-- The VPA-shaped tokens occurring in `raw`, in order: the full matches
(group 0) of the model-level `_VPA_RE` under `finditer` semantics. -/
def vpaTokens (raw : Text) : List Text :=
  (finditerGo MODEL_VPA_RE (raw.length + 1) [] raw).map (fun g => grpD 0 g)

/-- Modelled from the claim: does this (lowercased) token differ from the
record's `payee_vpa`, compared case-insensitively?  A null payee differs
from every token. -/
def differsFromPayee (payee : Option Text) (v : Text) : Bool :=
  match payee with
  | none => true
  | some p => !(v = lowerStr p)

/-- Modelled from the claim: the first VPA-shaped token occurring in
`raw_text` whose lowercase form differs from the record's `payee_vpa`
(compared case-insensitively), in the lowercase form the helper reports,
and the empty string when `raw_text` is empty or contains no such token. -/
def firstDifferingVpa (rec : PaymentRec) : Text :=
  match ((vpaTokens rec.raw_text).map lowerStr).filter
      (differsFromPayee rec.payee_vpa) with
  | [] => []
  | v :: _ => v

/-- Inverting a `MODEL_VPA_RE` match: group 0 is the whole consumed span,
which is never empty. -/
theorem deriv_model_vpa_grp0 {prev c rs : Text} {g : Groups}
    (hd : Deriv (RE.group 0 MODEL_VPA_RE) prev c rs [] g) :
    grpD 0 g = c ∧ c ≠ [] := by
  cases hd with
  | group h =>
    refine ⟨rfl, ?_⟩
    rw [show MODEL_VPA_RE = RE.cat .wordB (RE.cat (plus vpaWordB)
        (RE.cat (chr '@') (RE.cat (plus wordCharB) .wordB))) from rfl] at h
    cases h with
    | cat h1 h2 =>
      cases h1 with
      | wordB hb =>
        cases h2 with
        | cat h3 h4 =>
          rw [plus] at h3
          cases h3 with
          | cat h5 h6 =>
            cases h5 with
            | cls hp => simp

/-- The skip loop of `payer_vpa_guess` computes the head of the filtered,
lowercased `finditer` sequence (at the same fuel). -/
theorem pvGo_eq_filter (payee : Option Text) :
    ∀ (f : Nat) (prev rest : Text),
      pvGo payee f prev rest =
        match ((finditerGo MODEL_VPA_RE f prev rest).map
            (fun g => lowerStr (grpD 0 g))).filter (differsFromPayee payee) with
        | [] => []
        | v :: _ => v := by
  intro f
  induction f with
  | zero =>
    intro prev rest
    rfl
  | succ f ih =>
    intro prev rest
    rw [pvGo, finditerGo]
    cases hra : researchAux MODEL_VPA_RE prev rest with
    | none => rfl
    | some out =>
      obtain ⟨g, p2, rr⟩ := out
      dsimp only
      simp only [List.map_cons]
      have hne : grpD 0 g ≠ [] := by
        obtain ⟨skip, c, he, hd, _, _⟩ := researchAux_some hra
        obtain ⟨hg0, hcne⟩ := deriv_model_vpa_grp0 hd
        rw [hg0]
        exact hcne
      have hlne : lowerStr (grpD 0 g) ≠ [] := by
        intro hcontra
        exact hne (by simpa [lowerStr] using hcontra)
      cases payee with
      | none =>
        rw [if_neg (by simp [truthy])]
        rw [List.filter_cons, if_pos (by simp [differsFromPayee])]
      | some p =>
        by_cases hp : p = []
        · subst hp
          have h0 : lowerStr ([] : Text) = [] := rfl
          rw [if_neg (by simp [truthy])]
          rw [List.filter_cons, if_pos (by simp [differsFromPayee, h0, hlne])]
        · have htr : truthy (some p) = true := by simp [truthy, hp]
          by_cases hv : lowerStr (grpD 0 g) = lowerStr p
          · rw [if_pos (by simp [htr, hv])]
            rw [List.filter_cons, if_neg (by simp [differsFromPayee, hv])]
            exact ih p2 rr
          · rw [if_neg (by simp [hv])]
            rw [List.filter_cons, if_pos (by simp [differsFromPayee, hv])]

/-- C10 counterexample: a `Payment` whose `payee_vpa` is the non-null empty
string and whose `raw_text` holds no VPA token makes `payer_vpa_guess`
return exactly that `payee_vpa` value, refuting "never returns a value equal
to it" for non-null `payee_vpa`. -/
theorem payer_vpa_guess_counterexample :
    (⟨txt "x", some (txt "")⟩ : PaymentRec).payee_vpa = some (txt "") ∧
    payer_vpa_guess ⟨txt "x", some (txt "")⟩ = txt "" := by
  constructor
  · rfl
  · decide

/-- C10 (amended): for every `Payment` record, `payer_vpa_guess` returns
the first VPA-shaped token occurring in `raw_text` whose lowercase form
differs from the record's `payee_vpa` (compared case-insensitively) — i.e.
it coincides with `firstDifferingVpa`, the definition modelled from the
claim — and returns the empty string when `raw_text` is empty or contains
no such token; in particular, when `payee_vpa` is non-null and non-empty,
it never returns a value equal to it. -/
theorem payer_vpa_guess_spec (rec : PaymentRec) :
    payer_vpa_guess rec = firstDifferingVpa rec ∧
    (rec.raw_text = [] → payer_vpa_guess rec = []) ∧
    (∀ p, rec.payee_vpa = some p → p ≠ [] → payer_vpa_guess rec ≠ p) ∧
    payer_vpa_guess ⟨txt "from Alice@okaxis to bob@upi", some (txt "bob@upi")⟩ =
      txt "alice@okaxis" := by
  refine ⟨?_, ?_, ?_, by decide⟩
  · rw [payer_vpa_guess, firstDifferingVpa, vpaTokens, List.map_map]
    by_cases h : rec.raw_text = []
    · rw [if_pos h, h]
      rfl
    · rw [if_neg h]
      exact pvGo_eq_filter rec.payee_vpa _ [] rec.raw_text
  · intro h
    rw [payer_vpa_guess, if_pos h]
  · intro p hp hpne
    rw [payer_vpa_guess]
    split
    · intro h
      exact hpne h.symm
    · rw [hp]
      exact pvGo_ne hpne

/-- C10 witness: the non-return-of-payee guarantee at a concrete record. -/
theorem payer_vpa_guess_spec_witness :
    payer_vpa_guess ⟨txt "from Alice@okaxis to bob@upi", some (txt "bob@upi")⟩ ≠
      txt "bob@upi" :=
  (payer_vpa_guess_spec ⟨txt "from Alice@okaxis to bob@upi",
    some (txt "bob@upi")⟩).2.2.1 (txt "bob@upi") rfl (by decide)

end OcrTool
